import Mathlib

/-!
Shallow embedding of the d2animdata binary codec (src/d2animdata.py, with the
duplicate-frame check of src/animdata.py also modelled where a claim needs it).

Bytes are modelled as natural numbers (values below 256), byte strings as
`List Nat`, Python strings as lists of character code points, and Python
exceptions as `Except` error values.  The `AnimDataError` record mirrors the
exception class of the same name: a message (its static part) plus the byte
offset at which the failure was detected.
-/

/-- FRAME_MAX = 144, the number of frame-code bytes in a record. -/
def FRAME_MAX : Nat := 144

/-- DWORD_MAX = 0xFFFFFFFF, the largest unsigned 32-bit value. -/
def DWORD_MAX : Nat := 4294967295

/-- ASCII uppercasing of one code point; models `str.upper` on the ASCII
characters that make up COF names. -/
def py_upper (c : Nat) : Nat := if 97 ≤ c ∧ c ≤ 122 then c - 32 else c

/-- hash_cof_name: sum of the uppercased code points of the COF name, mod 256. -/
def hash_cof_name (cof_name : List Nat) : Nat :=
  ((cof_name.map py_upper).sum) % 256

/-- Insertion into the canonical (key-sorted) association list that represents
the `ActionTriggers` dict; an existing binding for the same frame is replaced,
matching `self.data[frame] = code`. -/
def insertSorted : List (Nat × Nat) → Nat → Nat → List (Nat × Nat)
  | [], frame, code => [(frame, code)]
  | p :: ps, frame, code =>
    if frame < p.1 then (frame, code) :: p :: ps
    else if frame = p.1 then (frame, code) :: ps
    else p :: insertSorted ps frame code

/-- ActionTriggers.__setitem__: frame must be in [0, FRAME_MAX) and code in
[1, 3], otherwise a ValueError is raised; on success the binding is stored. -/
def triggers_setitem (d : List (Nat × Nat)) (frame code : Nat) :
    Except String (List (Nat × Nat)) :=
  if FRAME_MAX ≤ frame then
    Except.error "frame must be between 0 and 143"
  else if 1 ≤ code ∧ code ≤ 3 then
    Except.ok (insertSorted d frame code)
  else
    Except.error "code must be between 1 and 3"

/-- `self.get(frame, 0)` on the triggers dict. -/
def triggers_get : List (Nat × Nat) → Nat → Nat
  | [], _ => 0
  | p :: ps, frame => if p.1 = frame then p.2 else triggers_get ps frame

/-- ActionTriggers.to_codes: the code of the trigger at each frame in
0..FRAME_MAX-1, or 0 when no trigger occupies the frame. -/
def to_codes (d : List (Nat × Nat)) : List Nat :=
  (List.range FRAME_MAX).map (fun frame => triggers_get d frame)

/-- Loop body of ActionTriggers.from_codes: enumerate the codes, stop at
FRAME_MAX, store each non-zero code through __setitem__. -/
def from_codes_go : List Nat → Nat → List (Nat × Nat) →
    Except String (List (Nat × Nat))
  | [], _, obj => Except.ok obj
  | code :: codes, frame, obj =>
    if FRAME_MAX ≤ frame then Except.ok obj
    else if code = 0 then from_codes_go codes (frame + 1) obj
    else
      match triggers_setitem obj frame code with
      | Except.ok obj' => from_codes_go codes (frame + 1) obj'
      | Except.error e => Except.error e

/-- ActionTriggers.from_codes. -/
def from_codes (frame_codes : List Nat) : Except String (List (Nat × Nat)) :=
  from_codes_go frame_codes 0 []

/-- Loop body of `ActionTriggers(pairs)` (UserDict init): every pair is stored
through __setitem__, so a later pair with the same frame overwrites. -/
def ActionTriggers_init_go : List (Nat × Nat) → List (Nat × Nat) →
    Except String (List (Nat × Nat))
  | [], obj => Except.ok obj
  | p :: ps, obj =>
    match triggers_setitem obj p.1 p.2 with
    | Except.ok obj' => ActionTriggers_init_go ps obj'
    | Except.error e => Except.error e

/-- `ActionTriggers(pairs)`: construction of a trigger set from a sequence of
(frame, code) pairs. -/
def ActionTriggers_init (pairs : List (Nat × Nat)) :
    Except String (List (Nat × Nat)) :=
  ActionTriggers_init_go pairs []

/-- An AnimData record: COF name (list of character code points),
frames_per_direction, animation_speed, and the triggers dict. -/
structure Record where
  cof_name : List Nat
  frames_per_direction : Nat
  animation_speed : Nat
  triggers : List (Nat × Nat)
deriving DecidableEq

/-- `Record(...)` construction: the managed-property validators run in field
order (cof_name length and null check, frames_per_direction range,
animation_speed range, then `ActionTriggers(value)` for the triggers). -/
def mkRecord (cof_name : List Nat) (frames_per_direction animation_speed : Nat)
    (triggers : List (Nat × Nat)) : Except String Record :=
  if cof_name.length ≠ 7 then
    Except.error "COF name must have exactly 7 characters."
  else if 0 ∈ cof_name then
    Except.error "COF name must not contain a null character."
  else if DWORD_MAX < frames_per_direction then
    Except.error "frames_per_direction out of range"
  else if DWORD_MAX < animation_speed then
    Except.error "animation_speed out of range"
  else
    match ActionTriggers_init triggers with
    | Except.ok t =>
      Except.ok (Record.mk cof_name frames_per_direction animation_speed t)
    | Except.error e => Except.error e

/-- Little-endian 32-bit decode of a 4-byte list. -/
def le32 : List Nat → Nat
  | [a, b, c, d] => a + 256 * b + 65536 * c + 16777216 * d
  | _ => 0

/-- Little-endian 32-bit encode. -/
def u32le (n : Nat) : List Nat :=
  [n % 256, n / 256 % 256, n / 65536 % 256, n / 16777216 % 256]

/-- `struct.pack("<L", n)`: raises struct.error when n does not fit 32 bits. -/
def packU32 (n : Nat) : Except String (List Nat) :=
  if n ≤ DWORD_MAX then Except.ok (u32le n)
  else Except.error "argument out of range"

/-- `struct.unpack_from` byte access: `n` bytes at `offset`, or failure when the
buffer is too short. -/
def readBytes (data : List Nat) (offset n : Nat) : Option (List Nat) :=
  if offset + n ≤ data.length then some ((data.drop offset).take n) else none

/-- The 8-byte `8s` field of struct.pack: the COF name bytes truncated to 8 and
null-padded on the right to exactly 8 bytes. -/
def cof_field (cof : List Nat) : List Nat :=
  cof.take 8 ++ List.replicate (8 - (cof.take 8).length) 0

/-- The AnimDataError exception: static message part plus byte offset. -/
structure AnimDataError where
  message : String
  offset : Option Nat
deriving DecidableEq

/-- Body of the second `try` of unpack_record: decode the COF name as the ASCII
bytes before the first null, build the triggers with from_codes, and construct
the Record (any ValueError propagates to the caller). -/
def build_record (cof_bytes8 : List Nat) (frames_per_direction animation_speed : Nat)
    (frame_data : List Nat) : Except String Record :=
  let cof := cof_bytes8.takeWhile (fun c => c ≠ 0)
  if ∀ c ∈ cof, c < 128 then
    match from_codes frame_data with
    | Except.error e => Except.error e
    | Except.ok triggers =>
      mkRecord cof frames_per_direction animation_speed triggers
  else Except.error "ascii codec cannot decode byte"

/-- unpack_record: read 160 bytes at `offset` (struct.error becomes an
AnimDataError carrying the offset), split them `<8sLL144B`, and construct the
Record; a ValueError becomes an AnimDataError "Invalid record field". -/
def unpack_record (buffer : List Nat) (offset : Nat) :
    Except AnimDataError (Record × Nat) :=
  match readBytes buffer offset 160 with
  | none => Except.error (AnimDataError.mk "Cannot unpack record" (some offset))
  | some bs =>
    match build_record (bs.take 8) (le32 ((bs.drop 8).take 4))
        (le32 ((bs.drop 12).take 4)) (bs.drop 16) with
    | Except.ok record => Except.ok (record, 160)
    | Except.error _ =>
      Except.error (AnimDataError.mk "Invalid record field" (some offset))

/-- pack_record: `struct.pack("<8sLL144B", bytes(cof_name, "ascii"), fpd, speed,
*to_codes)`; encoding a non-ASCII name or an out-of-range field raises. -/
def pack_record (record : Record) : Except String (List Nat) :=
  if ¬ (∀ c ∈ record.cof_name, c < 128) then
    Except.error "ascii codec cannot encode character"
  else if DWORD_MAX < record.frames_per_direction then
    Except.error "argument out of range"
  else if DWORD_MAX < record.animation_speed then
    Except.error "argument out of range"
  else if ¬ (∀ c ∈ to_codes record.triggers, c ≤ 255) then
    Except.error "ubyte format requires 0 <= number <= 255"
  else
    Except.ok (cof_field record.cof_name ++ u32le record.frames_per_direction ++
      u32le record.animation_speed ++ to_codes record.triggers)

/-- check_out_of_bounds_triggers: the frames the function warns about, namely
every trigger frame that is ≥ frames_per_direction (iteration in ascending
frame order); the record itself is left untouched. -/
def check_out_of_bounds_triggers (record : Record) : List Nat :=
  (record.triggers.map Prod.fst).filter
    (fun frame => record.frames_per_direction ≤ frame)

/-- Inner loop of loads for one block: unpack `n` records, checking that each
record's recomputed hash equals the block index. -/
def parseRecords (data : List Nat) (block_index : Nat) : Nat → Nat →
    Except AnimDataError (List Record × Nat)
  | 0, offset => Except.ok ([], offset)
  | n + 1, offset =>
    match unpack_record data offset with
    | Except.error e => Except.error e
    | Except.ok (record, record_size) =>
      if block_index = hash_cof_name record.cof_name then
        match parseRecords data block_index n (offset + record_size) with
        | Except.ok (records, offset') => Except.ok (record :: records, offset')
        | Except.error e => Except.error e
      else Except.error (AnimDataError.mk "Incorrect hash" (some offset))

/-- Outer loop of loads: `k` blocks starting at `block_index`, each a 4-byte
little-endian record count followed by that many records. -/
def parseBlocks (data : List Nat) : Nat → Nat → Nat →
    Except AnimDataError (List (List Record) × Nat)
  | _, 0, offset => Except.ok ([], offset)
  | block_index, k + 1, offset =>
    match readBytes data offset 4 with
    | none =>
      Except.error (AnimDataError.mk "Cannot unpack record count" (some offset))
    | some count_bytes =>
      match parseRecords data block_index (le32 count_bytes) (offset + 4) with
      | Except.error e => Except.error e
      | Except.ok (records, offset') =>
        match parseBlocks data (block_index + 1) k offset' with
        | Except.ok (blocks, offset'') =>
          Except.ok (records :: blocks, offset'')
        | Except.error e => Except.error e

/-- loads: parse all 256 blocks, then require the cursor to equal the buffer
length; the result is the concatenation of the per-block record lists. -/
def loads (data : List Nat) : Except AnimDataError (List Record) :=
  match parseBlocks data 0 256 0 with
  | Except.error e => Except.error e
  | Except.ok (blocks, offset) =>
    if offset = data.length then Except.ok blocks.flatten
    else Except.error (AnimDataError.mk "Data size mismatch" (some offset))

/-- The 256-bucket hash table of dumps: each record is appended to the bucket
named by its COF-name hash, in input order. -/
def buildHashTable (records : List Record) : Nat → List Record :=
  records.foldl
    (fun table record => fun b =>
      if b = hash_cof_name record.cof_name then table b ++ [record] else table b)
    (fun _ => [])

/-- Packing of one bucket's records, in bucket order. -/
def packRecords : List Record → Except String (List Nat)
  | [] => Except.ok []
  | record :: rest =>
    match pack_record record with
    | Except.error e => Except.error e
    | Except.ok bs =>
      match packRecords rest with
      | Except.error e => Except.error e
      | Except.ok rest_bs => Except.ok (bs ++ rest_bs)

/-- One block of dumps: the record count packed as uint32, then the records. -/
def packBlock (block : List Record) : Except String (List Nat) :=
  match packU32 block.length with
  | Except.error e => Except.error e
  | Except.ok count_bytes =>
    match packRecords block with
    | Except.error e => Except.error e
    | Except.ok recs_bs => Except.ok (count_bytes ++ recs_bs)

/-- Concatenation of the packed blocks for the given bucket indices. -/
def dumpsAux (table : Nat → List Record) : List Nat → Except String (List Nat)
  | [] => Except.ok []
  | b :: bs =>
    match packBlock (table b) with
    | Except.error e => Except.error e
    | Except.ok block_bs =>
      match dumpsAux table bs with
      | Except.error e => Except.error e
      | Except.ok rest_bs => Except.ok (block_bs ++ rest_bs)

/-- dumps: route every record to bucket hash_cof_name(cof_name), then emit the
256 buckets in index order. -/
def dumps (records : List Record) : Except String (List Nat) :=
  dumpsAux (buildHashTable records) (List.range 256)

/-- Duplicate-frame rejection loop of the `Record.triggers` setter in
src/animdata.py: a ValueError is raised when a frame repeats. -/
def animdata_check_duplicate_frames : List (Nat × Nat) → List Nat →
    Except String Unit
  | [], _ => Except.ok ()
  | trigger :: rest, frames_seen =>
    if trigger.1 ∈ frames_seen then
      Except.error "Cannot assign another trigger to a frame already in use."
    else animdata_check_duplicate_frames rest (trigger.1 :: frames_seen)

/-- The data-model invariants of a trigger set: canonical key-sorted form (at
most one trigger per frame), frames below FRAME_MAX, codes in [1, 3]. -/
def validTriggers (t : List (Nat × Nat)) : Prop :=
  List.Pairwise (fun p q => p.1 < q.1) t ∧
    ∀ p ∈ t, p.1 < FRAME_MAX ∧ 1 ≤ p.2 ∧ p.2 ≤ 3

/-- The data-model invariants of a record (spec section 3). -/
def validRecord (r : Record) : Prop :=
  r.cof_name.length = 7 ∧ (∀ c ∈ r.cof_name, c ≠ 0 ∧ c < 128) ∧
    r.frames_per_direction ≤ DWORD_MAX ∧ r.animation_speed ≤ DWORD_MAX ∧
    validTriggers r.triggers

/-- The 160 bytes pack_record produces for a valid record. -/
def encRecord (r : Record) : List Nat :=
  (r.cof_name ++ [0]) ++ (u32le r.frames_per_direction ++
    (u32le r.animation_speed ++ to_codes r.triggers))

/-- Concatenated encodings of a list of records. -/
def encRecords (records : List Record) : List Nat :=
  (records.map encRecord).flatten

/-- Concatenated block encodings (count header plus records) of a bucket list. -/
def encBlocks (blocks : List (List Record)) : List Nat :=
  (blocks.map (fun block => u32le block.length ++ encRecords block)).flatten

/-- The sparse trigger list denoted by a dense code list starting at `frame`:
one (frame, code) entry per non-zero code. -/
def sparse : List Nat → Nat → List (Nat × Nat)
  | [], _ => []
  | code :: codes, frame =>
    if code = 0 then sparse codes (frame + 1)
    else (frame, code) :: sparse codes (frame + 1)

/-- Records regrouped the way a dump-then-load round trip orders them: bucket
by bucket in hash order, keeping input order inside each bucket. -/
def regroup (records : List Record) : List Record :=
  ((List.range 256).map
    (fun b => records.filter (fun r => hash_cof_name r.cof_name = b))).flatten

instance (t : List (Nat × Nat)) : Decidable (validTriggers t) := by
  unfold validTriggers; infer_instance

instance (r : Record) : Decidable (validRecord r) := by
  unfold validRecord; infer_instance

/-! Basic lemmas about the byte-level helpers. -/

theorem hash_cof_name_lt (s : List Nat) : hash_cof_name s < 256 :=
  Nat.mod_lt _ (by norm_num)

theorem u32le_length (n : Nat) : (u32le n).length = 4 := rfl

theorem u32le_mem_lt (n : Nat) : ∀ x ∈ u32le n, x < 256 := by
  intro x hx
  simp only [u32le, List.mem_cons, List.not_mem_nil, or_false] at hx
  rcases hx with h | h | h | h <;> subst h <;> exact Nat.mod_lt _ (by norm_num)

theorem le32_u32le (n : Nat) (h : n ≤ DWORD_MAX) : le32 (u32le n) = n := by
  simp only [u32le, le32, DWORD_MAX] at *
  omega

theorem u32le_le32 (a b c d : Nat) (ha : a < 256) (hb : b < 256) (hc : c < 256)
    (hd : d < 256) : u32le (le32 [a, b, c, d]) = [a, b, c, d] := by
  simp only [u32le, le32, List.cons.injEq, and_true]
  refine ⟨?_, ?_, ?_, ?_⟩ <;> omega

theorem le32_le_DWORD (a b c d : Nat) (ha : a < 256) (hb : b < 256) (hc : c < 256)
    (hd : d < 256) : le32 [a, b, c, d] ≤ DWORD_MAX := by
  simp only [le32, DWORD_MAX]; omega

theorem readBytes_some_iff {data bs : List Nat} {offset n : Nat}
    (h : readBytes data offset n = some bs) :
    offset + n ≤ data.length ∧ bs = (data.drop offset).take n := by
  unfold readBytes at h
  split at h
  · exact ⟨by assumption, by injection h with h'; exact h'.symm⟩
  · cases h

theorem readBytes_of_append (front xs suf : List Nat) (n : Nat)
    (h : xs.length = n) :
    readBytes (front ++ (xs ++ suf)) front.length n = some xs := by
  have hlen : front.length + n ≤ (front ++ (xs ++ suf)).length := by
    simp [List.length_append, ← h]
  unfold readBytes
  rw [if_pos hlen, List.drop_left, List.take_left' h]

/-! Lemmas about trigger-set construction. -/

theorem insertSorted_append (acc : List (Nat × Nat)) (f c : Nat)
    (h : ∀ p ∈ acc, p.1 < f) : insertSorted acc f c = acc ++ [(f, c)] := by
  induction acc with
  | nil => rfl
  | cons p ps ih =>
    have hp := h p (List.mem_cons_self p ps)
    unfold insertSorted
    rw [if_neg (by omega), if_neg (by omega),
      ih (fun q hq => h q (List.mem_cons_of_mem p hq))]
    rfl

theorem ActionTriggers_init_go_append (T : List (Nat × Nat))
    (hT : ∀ p ∈ T, p.1 < FRAME_MAX ∧ 1 ≤ p.2 ∧ p.2 ≤ 3)
    (hsorted : List.Pairwise (fun p q => p.1 < q.1) T) :
    ∀ acc : List (Nat × Nat), (∀ p ∈ acc, ∀ q ∈ T, p.1 < q.1) →
      ActionTriggers_init_go T acc = Except.ok (acc ++ T) := by
  induction T with
  | nil => intro acc _; simp [ActionTriggers_init_go]
  | cons p ps ih =>
    intro acc hacc
    obtain ⟨hf, hc1, hc3⟩ := hT p (List.mem_cons_self p ps)
    rw [List.pairwise_cons] at hsorted
    unfold ActionTriggers_init_go triggers_setitem
    rw [if_neg (by omega), if_pos ⟨hc1, hc3⟩,
      insertSorted_append acc p.1 p.2
        (fun q hq => hacc q hq p (List.mem_cons_self p ps))]
    have ih' := ih (fun q hq => hT q (List.mem_cons_of_mem p hq)) hsorted.2
      (acc ++ [(p.1, p.2)]) ?_
    · exact ih'.trans (by simp)
    · intro x hx q hq
      rcases List.mem_append.mp hx with hx | hx
      · exact hacc x hx q (List.mem_cons_of_mem p hq)
      · have : x = (p.1, p.2) := by simpa using hx
        subst this
        exact hsorted.1 q hq

theorem ActionTriggers_init_of_valid (T : List (Nat × Nat))
    (h : validTriggers T) : ActionTriggers_init T = Except.ok T := by
  have := ActionTriggers_init_go_append T h.2 h.1 [] (by simp)
  simpa [ActionTriggers_init] using this

theorem mkRecord_ok (cof : List Nat) (fpd speed : Nat) (T : List (Nat × Nat))
    (hlen : cof.length = 7) (hz : ∀ c ∈ cof, c ≠ 0) (hfpd : fpd ≤ DWORD_MAX)
    (hspeed : speed ≤ DWORD_MAX) (hT : validTriggers T) :
    mkRecord cof fpd speed T = Except.ok (Record.mk cof fpd speed T) := by
  unfold mkRecord
  rw [if_neg (by omega), if_neg (fun h0 => hz 0 h0 rfl), if_neg (by omega),
    if_neg (by omega), ActionTriggers_init_of_valid T hT]

/-! Lemmas about the trigger-frame codec. -/

theorem triggers_get_eq_zero (d : List (Nat × Nat)) (f : Nat)
    (h : ∀ p ∈ d, p.1 ≠ f) : triggers_get d f = 0 := by
  induction d with
  | nil => rfl
  | cons p ps ih =>
    simp only [triggers_get]
    rw [if_neg (h p (List.mem_cons_self p ps))]
    exact ih (fun q hq => h q (List.mem_cons_of_mem p hq))

theorem triggers_get_le_3 (T : List (Nat × Nat)) (f : Nat)
    (h : ∀ p ∈ T, 1 ≤ p.2 ∧ p.2 ≤ 3) : triggers_get T f ≤ 3 := by
  induction T with
  | nil => exact Nat.zero_le 3
  | cons p ps ih =>
    simp only [triggers_get]
    split
    · exact (h p (List.mem_cons_self p ps)).2
    · exact ih (fun q hq => h q (List.mem_cons_of_mem p hq))

theorem sparse_key_bounds (codes : List Nat) :
    ∀ start, ∀ p ∈ sparse codes start, start ≤ p.1 ∧ p.1 < start + codes.length := by
  induction codes with
  | nil => intro start p hp; cases hp
  | cons c cs ih =>
    intro start p hp
    by_cases hc : c = 0
    · rw [sparse, if_pos hc] at hp
      have := ih (start + 1) p hp
      simp only [List.length_cons]
      omega
    · rw [sparse, if_neg hc] at hp
      rcases List.mem_cons.mp hp with heq | hmem
      · subst heq
        simp only [List.length_cons]
        omega
      · have := ih (start + 1) p hmem
        simp only [List.length_cons]
        omega

theorem sparse_code_valid (codes : List Nat) (h : ∀ c ∈ codes, c ≤ 3) :
    ∀ start, ∀ p ∈ sparse codes start, 1 ≤ p.2 ∧ p.2 ≤ 3 := by
  induction codes with
  | nil => intro start p hp; cases hp
  | cons c cs ih =>
    intro start p hp
    by_cases hc : c = 0
    · rw [sparse, if_pos hc] at hp
      exact ih (fun x hx => h x (List.mem_cons_of_mem c hx)) (start + 1) p hp
    · rw [sparse, if_neg hc] at hp
      rcases List.mem_cons.mp hp with heq | hmem
      · subst heq
        exact ⟨by omega, h c (List.mem_cons_self c cs)⟩
      · exact ih (fun x hx => h x (List.mem_cons_of_mem c hx)) (start + 1) p hmem

theorem sparse_pairwise (codes : List Nat) :
    ∀ start, List.Pairwise (fun p q => p.1 < q.1) (sparse codes start) := by
  induction codes with
  | nil => intro start; exact List.Pairwise.nil
  | cons c cs ih =>
    intro start
    by_cases hc : c = 0
    · rw [sparse, if_pos hc]; exact ih (start + 1)
    · rw [sparse, if_neg hc]
      refine List.Pairwise.cons (fun q hq => ?_) (ih (start + 1))
      have := (sparse_key_bounds cs (start + 1) q hq).1
      simp only []
      omega

theorem sparse_valid (codes : List Nat) (h : ∀ c ∈ codes, c ≤ 3)
    (hlen : codes.length ≤ FRAME_MAX) : validTriggers (sparse codes 0) := by
  refine ⟨sparse_pairwise codes 0, fun p hp => ?_⟩
  have h1 := sparse_key_bounds codes 0 p hp
  have h2 := sparse_code_valid codes h 0 p hp
  exact ⟨by omega, h2.1, h2.2⟩

theorem from_codes_go_eq_sparse (codes : List Nat) :
    ∀ start acc, start + codes.length ≤ FRAME_MAX → (∀ c ∈ codes, c ≤ 3) →
    (∀ p ∈ acc, p.1 < start) →
    from_codes_go codes start acc = Except.ok (acc ++ sparse codes start) := by
  induction codes with
  | nil => intro start acc _ _ _; simp [from_codes_go, sparse]
  | cons c cs ih =>
    intro start acc hlen hcodes hacc
    have hlen' : start + 1 + cs.length ≤ FRAME_MAX := by
      simp only [List.length_cons] at hlen; omega
    have hstart : ¬ FRAME_MAX ≤ start := by
      simp only [List.length_cons] at hlen; omega
    by_cases hc : c = 0
    · rw [from_codes_go, if_neg hstart, if_pos hc, sparse, if_pos hc]
      exact ih (start + 1) acc hlen'
        (fun x hx => hcodes x (List.mem_cons_of_mem c hx))
        (fun p hp => Nat.lt_succ_of_lt (hacc p hp))
    · rw [from_codes_go, if_neg hstart, if_neg hc]
      unfold triggers_setitem
      rw [if_neg hstart,
        if_pos ⟨by omega, hcodes c (List.mem_cons_self c cs)⟩,
        insertSorted_append acc start c hacc]
      show from_codes_go cs (start + 1) (acc ++ [(start, c)]) = _
      rw [ih (start + 1) (acc ++ [(start, c)]) hlen'
        (fun x hx => hcodes x (List.mem_cons_of_mem c hx)) ?_]
      · rw [sparse, if_neg hc]
        simp
      · intro p hp
        rcases List.mem_append.mp hp with h | h
        · exact Nat.lt_succ_of_lt (hacc p h)
        · have : p = (start, c) := by simpa using h
          subst this
          exact Nat.lt_succ_self start

theorem from_codes_go_ok_codes_le (codes : List Nat) :
    ∀ start acc T, start + codes.length ≤ FRAME_MAX →
    from_codes_go codes start acc = Except.ok T → ∀ c ∈ codes, c ≤ 3 := by
  induction codes with
  | nil => intro _ _ _ _ _ c hc; cases hc
  | cons c cs ih =>
    intro start acc T hlen hok x hx
    have hlen' : start + 1 + cs.length ≤ FRAME_MAX := by
      simp only [List.length_cons] at hlen; omega
    have hstart : ¬ FRAME_MAX ≤ start := by
      simp only [List.length_cons] at hlen; omega
    rw [from_codes_go, if_neg hstart] at hok
    by_cases hc : c = 0
    · rw [if_pos hc] at hok
      rcases List.mem_cons.mp hx with heq | hmem
      · subst heq; omega
      · exact ih (start + 1) acc T hlen' hok x hmem
    · rw [if_neg hc] at hok
      unfold triggers_setitem at hok
      rw [if_neg hstart] at hok
      by_cases hcv : 1 ≤ c ∧ c ≤ 3
      · rw [if_pos hcv] at hok
        rcases List.mem_cons.mp hx with heq | hmem
        · subst heq; exact hcv.2
        · exact ih (start + 1) (insertSorted acc start c) T hlen' hok x hmem
      · rw [if_neg hcv] at hok
        cases hok

theorem from_codes_go_err (codes : List Nat) :
    ∀ start acc, start + codes.length ≤ FRAME_MAX → (∃ c ∈ codes, 4 ≤ c) →
    from_codes_go codes start acc =
      Except.error "code must be between 1 and 3" := by
  induction codes with
  | nil => intro _ _ _ h; simp at h
  | cons c cs ih =>
    intro start acc hlen hex
    have hlen' : start + 1 + cs.length ≤ FRAME_MAX := by
      simp only [List.length_cons] at hlen; omega
    have hstart : ¬ FRAME_MAX ≤ start := by
      simp only [List.length_cons] at hlen; omega
    by_cases hc4 : 4 ≤ c
    · rw [from_codes_go, if_neg hstart, if_neg (by omega : ¬ c = 0)]
      unfold triggers_setitem
      rw [if_neg hstart, if_neg (by omega : ¬ (1 ≤ c ∧ c ≤ 3))]
    · obtain ⟨w, hw, hw4⟩ := hex
      have hwcs : w ∈ cs := by
        rcases List.mem_cons.mp hw with heq | hmem
        · omega
        · exact hmem
      by_cases hc : c = 0
      · rw [from_codes_go, if_neg hstart, if_pos hc]
        exact ih (start + 1) acc hlen' ⟨w, hwcs, hw4⟩
      · rw [from_codes_go, if_neg hstart, if_neg hc]
        unfold triggers_setitem
        rw [if_neg hstart, if_pos ⟨by omega, by omega⟩]
        exact ih (start + 1) (insertSorted acc start c) hlen' ⟨w, hwcs, hw4⟩

theorem triggers_get_sparse (codes : List Nat) :
    ∀ start i, i < codes.length →
    triggers_get (sparse codes start) (start + i) = codes.getD i 0 := by
  induction codes with
  | nil => intro _ i hi; cases hi
  | cons c cs ih =>
    intro start i hi
    by_cases hc : c = 0
    · rw [sparse, if_pos hc]
      cases i with
      | zero =>
        rw [triggers_get_eq_zero]
        · simp [hc]
        · intro p hp
          have := (sparse_key_bounds cs (start + 1) p hp).1
          omega
      | succ i' =>
        have := ih (start + 1) i' (by simp only [List.length_cons] at hi; omega)
        rw [show start + (i' + 1) = start + 1 + i' by omega]
        simpa using this
    · rw [sparse, if_neg hc]
      cases i with
      | zero => simp [triggers_get]
      | succ i' =>
        rw [triggers_get, if_neg (by show ¬ start = start + (i' + 1); omega)]
        have := ih (start + 1) i' (by simp only [List.length_cons] at hi; omega)
        rw [show start + (i' + 1) = start + 1 + i' by omega]
        simpa using this

theorem to_codes_length (d : List (Nat × Nat)) : (to_codes d).length = FRAME_MAX := by
  simp [to_codes]

theorem to_codes_sparse (codes : List Nat) (hlen : codes.length = FRAME_MAX) :
    to_codes (sparse codes 0) = codes := by
  apply List.ext_getElem
  · simp [to_codes, hlen]
  · intro i h1 h2
    simp only [to_codes, List.getElem_map, List.getElem_range]
    have hi : i < codes.length := h2
    have h := triggers_get_sparse codes 0 i hi
    rw [Nat.zero_add] at h
    rw [h, List.getD_eq_getElem]

theorem sparse_map_get :
    ∀ (n : Nat) (T : List (Nat × Nat)) (start : Nat),
    List.Pairwise (fun p q => p.1 < q.1) T →
    (∀ p ∈ T, start ≤ p.1 ∧ p.1 < start + n ∧ 1 ≤ p.2 ∧ p.2 ≤ 3) →
    sparse ((List.range' start n).map (fun f => triggers_get T f)) start = T := by
  intro n
  induction n with
  | zero =>
    intro T start _ hmem
    cases T with
    | nil => rfl
    | cons p ps => exact absurd (hmem p (List.mem_cons_self p ps)) (by omega)
  | succ n ih =>
    intro T start hsorted hmem
    rw [List.range'_succ, List.map_cons]
    cases T with
    | nil =>
      rw [show triggers_get ([] : List (Nat × Nat)) start = 0 from rfl,
        sparse, if_pos rfl]
      exact ih [] (start + 1) List.Pairwise.nil (by intro p hp; cases hp)
    | cons p ps =>
      have hhead := (List.pairwise_cons.mp hsorted).1
      have htail := (List.pairwise_cons.mp hsorted).2
      by_cases hp : p.1 = start
      · have hv := hmem p (List.mem_cons_self p ps)
        rw [show triggers_get (p :: ps) start = p.2 from by
          rw [triggers_get, if_pos hp]]
        rw [sparse, if_neg (by omega)]
        have hmapeq : (List.range' (start + 1) n).map
            (fun f => triggers_get (p :: ps) f)
            = (List.range' (start + 1) n).map (fun f => triggers_get ps f) := by
          apply List.map_congr_left
          intro f hf
          have hge : start + 1 ≤ f := (List.mem_range'_1.mp hf).1
          rw [triggers_get, if_neg (by omega)]
        rw [hmapeq, ih ps (start + 1) htail ?_]
        · have hpe : (start, p.2) = p := by
            cases p
            simp only at hp
            simp [hp]
          rw [hpe]
        · intro q hq
          have h1 := hhead q hq
          have h2 := hmem q (List.mem_cons_of_mem p hq)
          exact ⟨by omega, by omega, h2.2.2⟩
      · have hp1 : start < p.1 := by
          have := (hmem p (List.mem_cons_self p ps)).1
          omega
        rw [show triggers_get (p :: ps) start = 0 from by
          apply triggers_get_eq_zero
          intro q hq
          rcases List.mem_cons.mp hq with heq | hmem'
          · subst heq; omega
          · have := hhead q hmem'
            omega]
        rw [sparse, if_pos rfl]
        refine ih (p :: ps) (start + 1) hsorted (fun q hq => ?_)
        have h2 := hmem q hq
        rcases List.mem_cons.mp hq with heq | hmem'
        · subst heq; exact ⟨by omega, by omega, h2.2.2⟩
        · have := hhead q hmem'
          exact ⟨by omega, by omega, h2.2.2⟩

theorem to_codes_le_3 (T : List (Nat × Nat)) (h : validTriggers T) :
    ∀ c ∈ to_codes T, c ≤ 3 := by
  intro c hc
  rw [to_codes] at hc
  obtain ⟨f, _, hf⟩ := List.mem_map.mp hc
  exact hf ▸ triggers_get_le_3 T f (fun p hp => ⟨(h.2 p hp).2.1, (h.2 p hp).2.2⟩)

theorem from_codes_of_to_codes (T : List (Nat × Nat)) (h : validTriggers T) :
    from_codes (to_codes T) = Except.ok T := by
  rw [from_codes]
  rw [from_codes_go_eq_sparse (to_codes T) 0 []
    (by rw [Nat.zero_add, to_codes_length]) (to_codes_le_3 T h)
    (by intro p hp; cases hp)]
  rw [List.nil_append]
  congr 1
  rw [to_codes, List.range_eq_range']
  exact sparse_map_get FRAME_MAX T 0 h.1 (fun p hp =>
    ⟨Nat.zero_le _, by have := (h.2 p hp).1; omega,
      (h.2 p hp).2.1, (h.2 p hp).2.2⟩)

theorem from_codes_ok_eq (codes : List Nat) (T : List (Nat × Nat))
    (hlen : codes.length = FRAME_MAX)
    (hok : from_codes codes = Except.ok T) :
    T = sparse codes 0 ∧ to_codes T = codes ∧ validTriggers T ∧
      ∀ c ∈ codes, c ≤ 3 := by
  have hle : ∀ c ∈ codes, c ≤ 3 :=
    from_codes_go_ok_codes_le codes 0 [] T (by omega) hok
  have heq := from_codes_go_eq_sparse codes 0 [] (by omega) hle
    (by intro p hp; cases hp)
  rw [from_codes, heq] at hok
  injection hok with hok
  rw [List.nil_append] at hok
  subst hok
  exact ⟨rfl, to_codes_sparse codes hlen,
    sparse_valid codes hle (by omega), hle⟩

/-! Record-level pack/unpack lemmas. -/

theorem cof_field_eq (cof : List Nat) (h : cof.length = 7) :
    cof_field cof = cof ++ [0] := by
  unfold cof_field
  rw [List.take_of_length_le (by omega), h]
  rfl

theorem encRecord_length (r : Record) (h : r.cof_name.length = 7) :
    (encRecord r).length = 160 := by
  simp [encRecord, u32le, to_codes, h, FRAME_MAX]

theorem encRecord_split (r : Record) (h : r.cof_name.length = 7) :
    (encRecord r).take 8 = r.cof_name ++ [0] ∧
    ((encRecord r).drop 8).take 4 = u32le r.frames_per_direction ∧
    ((encRecord r).drop 12).take 4 = u32le r.animation_speed ∧
    (encRecord r).drop 16 = to_codes r.triggers := by
  have hA : (r.cof_name ++ [0]).length = 8 := by simp [h]
  have hd8 : (encRecord r).drop 8 = u32le r.frames_per_direction ++
      (u32le r.animation_speed ++ to_codes r.triggers) := by
    unfold encRecord
    rw [List.drop_left' hA]
  have hd12 : (encRecord r).drop 12 =
      u32le r.animation_speed ++ to_codes r.triggers := by
    rw [show (12 : Nat) = 8 + 4 from rfl, ← List.drop_drop, hd8,
      List.drop_left' (u32le_length _)]
  have hd16 : (encRecord r).drop 16 = to_codes r.triggers := by
    rw [show (16 : Nat) = 12 + 4 from rfl, ← List.drop_drop, hd12,
      List.drop_left' (u32le_length _)]
  refine ⟨?_, ?_, ?_, hd16⟩
  · unfold encRecord
    rw [List.take_left' hA]
  · rw [hd8, List.take_left' (u32le_length _)]
  · rw [hd12, List.take_left' (u32le_length _)]

theorem takeWhile_cof (cof : List Nat) (h : ∀ c ∈ cof, c ≠ 0) :
    (cof ++ [0]).takeWhile (fun c => c ≠ 0) = cof := by
  induction cof with
  | nil => rfl
  | cons c cs ih =>
    have hc := h c (List.mem_cons_self c cs)
    rw [List.cons_append, List.takeWhile_cons, if_pos (by simpa using hc),
      ih (fun x hx => h x (List.mem_cons_of_mem c hx))]

theorem pack_record_ok (r : Record) (h : validRecord r) :
    pack_record r = Except.ok (encRecord r) := by
  obtain ⟨cof, fpd, speed, T⟩ := r
  obtain ⟨hlen, hcof, hfpd, hspeed, hT⟩ := h
  unfold pack_record
  rw [if_neg (not_not_intro (fun c hc => (hcof c hc).2)),
    if_neg (by simp only [] at hfpd ⊢; omega),
    if_neg (by simp only [] at hspeed ⊢; omega),
    if_neg (not_not_intro (fun c hc =>
      le_trans (to_codes_le_3 T hT c hc) (by norm_num))),
    cof_field_eq cof hlen]
  simp [encRecord, List.append_assoc]

theorem build_record_encRecord (r : Record) (h : validRecord r) :
    build_record ((encRecord r).take 8) (le32 (((encRecord r).drop 8).take 4))
      (le32 (((encRecord r).drop 12).take 4)) ((encRecord r).drop 16)
      = Except.ok r := by
  obtain ⟨cof, fpd, speed, T⟩ := r
  obtain ⟨hlen, hcof, hfpd, hspeed, hT⟩ := h
  obtain ⟨h1, h2, h3, h4⟩ := encRecord_split (Record.mk cof fpd speed T) hlen
  rw [h1, h2, h3, h4, le32_u32le fpd hfpd, le32_u32le speed hspeed]
  simp only [build_record]
  rw [takeWhile_cof cof (fun c hc => (hcof c hc).1)]
  rw [if_pos (fun c hc => (hcof c hc).2)]
  rw [from_codes_of_to_codes T hT]
  exact mkRecord_ok cof fpd speed T hlen (fun c hc => (hcof c hc).1) hfpd
    hspeed hT

theorem unpack_record_encRecord (front suf : List Nat) (r : Record)
    (h : validRecord r) :
    unpack_record (front ++ (encRecord r ++ suf)) front.length =
      Except.ok (r, 160) := by
  have hrb := readBytes_of_append front (encRecord r) suf 160
    (encRecord_length r h.1)
  unfold unpack_record
  simp only [hrb]
  rw [build_record_encRecord r h]

/-! Table-level lemmas: parsing an encoded table. -/

/-- Well-formedness of a bucket list for encoding, bucket i counted from b:
valid records hashing to b + i, with a record count that fits 32 bits. -/
def bucketsOk : Nat → List (List Record) → Prop
  | _, [] => True
  | b, bucket :: rest =>
    ((∀ r ∈ bucket, validRecord r ∧ hash_cof_name r.cof_name = b) ∧
      bucket.length ≤ DWORD_MAX) ∧ bucketsOk (b + 1) rest

theorem encRecords_cons (r : Record) (rs : List Record) :
    encRecords (r :: rs) = encRecord r ++ encRecords rs := by
  simp [encRecords]

theorem encRecords_length (records : List Record)
    (h : ∀ r ∈ records, validRecord r) :
    (encRecords records).length = 160 * records.length := by
  induction records with
  | nil => rfl
  | cons r rs ih =>
    rw [encRecords_cons, List.length_append,
      encRecord_length r (h r (List.mem_cons_self r rs)).1,
      ih (fun x hx => h x (List.mem_cons_of_mem r hx)), List.length_cons]
    omega

theorem encBlocks_cons (bucket : List Record) (rest : List (List Record)) :
    encBlocks (bucket :: rest) =
      (u32le bucket.length ++ encRecords bucket) ++ encBlocks rest := by
  simp [encBlocks]

theorem parseRecords_encRecords (bucket : List Record) :
    ∀ (front suf : List Nat) (bi : Nat),
    (∀ r ∈ bucket, validRecord r ∧ hash_cof_name r.cof_name = bi) →
    parseRecords (front ++ (encRecords bucket ++ suf)) bi bucket.length
      front.length =
      Except.ok (bucket, front.length + 160 * bucket.length) := by
  induction bucket with
  | nil =>
    intro front suf bi _
    simp [parseRecords]
  | cons r rs ih =>
    intro front suf bi h
    obtain ⟨hvr, hhash⟩ := h r (List.mem_cons_self r rs)
    have hdata : front ++ (encRecords (r :: rs) ++ suf) =
        front ++ (encRecord r ++ (encRecords rs ++ suf)) := by
      rw [encRecords_cons, List.append_assoc]
    rw [hdata, List.length_cons, parseRecords]
    simp only [unpack_record_encRecord front (encRecords rs ++ suf) r hvr]
    rw [if_pos hhash.symm]
    have ih' := ih (front ++ encRecord r) suf bi
      (fun x hx => h x (List.mem_cons_of_mem r hx))
    rw [List.append_assoc, List.length_append, encRecord_length r hvr.1] at ih'
    simp only [ih']
    rw [show front.length + 160 * (rs.length + 1) =
      front.length + 160 + 160 * rs.length from by omega]

theorem parseBlocks_encBlocks (bl : List (List Record)) :
    ∀ (front suf : List Nat) (b : Nat), bucketsOk b bl →
    parseBlocks (front ++ (encBlocks bl ++ suf)) b bl.length front.length =
      Except.ok (bl, front.length + (encBlocks bl).length) := by
  induction bl with
  | nil =>
    intro front suf b _
    simp [parseBlocks, encBlocks]
  | cons bucket rest ih =>
    intro front suf b hok
    obtain ⟨⟨hmem, hcnt⟩, hrest⟩ := hok
    have hvb : ∀ r ∈ bucket, validRecord r := fun r hr => (hmem r hr).1
    have hdata : front ++ (encBlocks (bucket :: rest) ++ suf) =
        front ++ (u32le bucket.length ++
          (encRecords bucket ++ (encBlocks rest ++ suf))) := by
      rw [encBlocks_cons]
      simp only [List.append_assoc]
    rw [hdata, List.length_cons, parseBlocks]
    simp only [readBytes_of_append front (u32le bucket.length)
      (encRecords bucket ++ (encBlocks rest ++ suf)) 4 (u32le_length _)]
    rw [le32_u32le _ hcnt]
    have hpr := parseRecords_encRecords bucket (front ++ u32le bucket.length)
      (encBlocks rest ++ suf) b hmem
    rw [List.append_assoc, List.length_append, u32le_length] at hpr
    simp only [hpr]
    have ih' : parseBlocks
        (front ++ (u32le bucket.length ++
          (encRecords bucket ++ (encBlocks rest ++ suf))))
        (b + 1) rest.length (front.length + 4 + 160 * bucket.length) =
        Except.ok (rest, front.length + 4 + 160 * bucket.length +
          (encBlocks rest).length) := by
      have h0 := ih ((front ++ u32le bucket.length) ++ encRecords bucket) suf
        (b + 1) hrest
      rw [List.append_assoc, List.append_assoc] at h0
      rw [show ((front ++ u32le bucket.length) ++ encRecords bucket).length
        = front.length + 4 + 160 * bucket.length from by
          simp [List.length_append, u32le_length,
            encRecords_length bucket hvb]
          omega] at h0
      exact h0
    simp only [ih']
    rw [encBlocks_cons, List.length_append, List.length_append, u32le_length,
      encRecords_length bucket hvb]
    congr 2
    omega

/-! Lemmas about the dumps side. -/

theorem buildHashTable_eq_filter (records : List Record) (b : Nat) :
    buildHashTable records b =
      records.filter (fun r => hash_cof_name r.cof_name = b) := by
  suffices h : ∀ (rs : List Record) (table : Nat → List Record),
      (rs.foldl (fun table record => fun x =>
        if x = hash_cof_name record.cof_name then table x ++ [record]
        else table x) table) b
      = table b ++ rs.filter (fun r => hash_cof_name r.cof_name = b) by
    have := h records (fun _ => [])
    simpa [buildHashTable] using this
  intro rs
  induction rs with
  | nil => intro table; simp
  | cons r rs ih =>
    intro table
    rw [List.foldl_cons, ih]
    by_cases hb : b = hash_cof_name r.cof_name
    · simp only [if_pos hb, List.filter_cons,
        if_pos (show decide (hash_cof_name r.cof_name = b) = true by
          simp only [decide_eq_true_eq]; exact hb.symm)]
      rw [List.append_assoc, List.singleton_append]
    · simp only [if_neg hb, List.filter_cons,
        if_neg (show ¬ decide (hash_cof_name r.cof_name = b) = true by
          simp only [decide_eq_true_eq]; exact fun he => hb he.symm)]

theorem packRecords_ok (bucket : List Record)
    (h : ∀ r ∈ bucket, validRecord r) :
    packRecords bucket = Except.ok (encRecords bucket) := by
  induction bucket with
  | nil => simp [packRecords, encRecords]
  | cons r rs ih =>
    simp only [packRecords, pack_record_ok r (h r (List.mem_cons_self r rs)),
      ih (fun x hx => h x (List.mem_cons_of_mem r hx)), encRecords_cons]

theorem packBlock_ok (bucket : List Record) (h : ∀ r ∈ bucket, validRecord r)
    (hcnt : bucket.length ≤ DWORD_MAX) :
    packBlock bucket =
      Except.ok (u32le bucket.length ++ encRecords bucket) := by
  simp only [packBlock, packU32, if_pos hcnt, packRecords_ok bucket h]

theorem dumpsAux_map (table : Nat → List Record) :
    ∀ (idxs : List Nat),
    (∀ b ∈ idxs, (∀ r ∈ table b, validRecord r) ∧
      (table b).length ≤ DWORD_MAX) →
    dumpsAux table idxs = Except.ok (encBlocks (idxs.map table)) := by
  intro idxs
  induction idxs with
  | nil => intro _; simp [dumpsAux, encBlocks]
  | cons b bs ih =>
    intro h
    obtain ⟨hv, hc⟩ := h b (List.mem_cons_self b bs)
    simp only [dumpsAux, packBlock_ok (table b) hv hc,
      ih (fun x hx => h x (List.mem_cons_of_mem b hx)), List.map_cons,
      encBlocks_cons]

theorem bucketsOk_range (L : List Record) (hv : ∀ r ∈ L, validRecord r)
    (hcnt : ∀ b, (buildHashTable L b).length ≤ DWORD_MAX) :
    ∀ (k b0 : Nat), bucketsOk b0 ((List.range' b0 k).map (buildHashTable L)) := by
  intro k
  induction k with
  | zero => intro b0; trivial
  | succ k ih =>
    intro b0
    rw [List.range'_succ, List.map_cons]
    refine ⟨⟨fun r hr => ?_, hcnt b0⟩, ih (b0 + 1)⟩
    rw [buildHashTable_eq_filter] at hr
    have hm := List.mem_filter.mp hr
    exact ⟨hv r hm.1, by simpa using hm.2⟩

theorem dumps_ok (L : List Record) (hv : ∀ r ∈ L, validRecord r)
    (hcnt : ∀ b, (buildHashTable L b).length ≤ DWORD_MAX) :
    dumps L = Except.ok (encBlocks ((List.range 256).map (buildHashTable L))) := by
  rw [dumps, List.range_eq_range']
  rw [dumpsAux_map (buildHashTable L) (List.range' 0 256) (fun b _ => ⟨fun r hr => by
    rw [buildHashTable_eq_filter] at hr
    exact hv r (List.mem_filter.mp hr).1, hcnt b⟩)]

theorem loads_dumps (L : List Record) (hv : ∀ r ∈ L, validRecord r)
    (hcnt : ∀ b, (buildHashTable L b).length ≤ DWORD_MAX) :
    ∃ data, dumps L = Except.ok data ∧ loads data = Except.ok (regroup L) := by
  refine ⟨encBlocks ((List.range 256).map (buildHashTable L)),
    dumps_ok L hv hcnt, ?_⟩
  have hparse := parseBlocks_encBlocks
    ((List.range 256).map (buildHashTable L)) [] [] 0 ?_
  · rw [List.nil_append, List.append_nil] at hparse
    have hlen : ((List.range 256).map (buildHashTable L)).length = 256 := by
      simp
    rw [hlen] at hparse
    simp only [List.length_nil] at hparse
    rw [loads]
    simp only [hparse]
    rw [if_pos (Nat.zero_add _)]
    have hmapeq : (List.range 256).map (buildHashTable L) =
        (List.range 256).map
          (fun b => L.filter (fun r => hash_cof_name r.cof_name = b)) :=
      List.map_congr_left (fun b _ => buildHashTable_eq_filter L b)
    rw [hmapeq, regroup]
  · rw [List.range_eq_range']
    exact bucketsOk_range L hv hcnt 256 0

/-! Inversion lemmas: what a successful decode tells us about the bytes. -/

theorem list_len4 (l : List Nat) (h : l.length = 4) :
    ∃ a b c d, l = [a, b, c, d] := by
  cases l with
  | nil => simp at h
  | cons a l1 =>
    cases l1 with
    | nil => simp at h
    | cons b l2 =>
      cases l2 with
      | nil => simp at h
      | cons c l3 =>
        cases l3 with
        | nil => simp at h
        | cons d l4 =>
          cases l4 with
          | nil => exact ⟨a, b, c, d, rfl⟩
          | cons e l5 => simp at h

theorem le32_le_DWORD_of (l : List Nat) (hlen : l.length = 4)
    (hb : ∀ x ∈ l, x < 256) : le32 l ≤ DWORD_MAX := by
  obtain ⟨a, b, c, d, rfl⟩ := list_len4 l hlen
  exact le32_le_DWORD a b c d (hb a (by simp)) (hb b (by simp))
    (hb c (by simp)) (hb d (by simp))

theorem u32le_le32_of (l : List Nat) (hlen : l.length = 4)
    (hb : ∀ x ∈ l, x < 256) : u32le (le32 l) = l := by
  obtain ⟨a, b, c, d, rfl⟩ := list_len4 l hlen
  exact u32le_le32 a b c d (hb a (by simp)) (hb b (by simp))
    (hb c (by simp)) (hb d (by simp))

theorem take_drop_len (data : List Nat) (off k : Nat)
    (h : off + k ≤ data.length) : ((data.drop off).take k).length = k := by
  rw [List.length_take, List.length_drop]; omega

theorem take_drop_mem (data : List Nat) (off k : Nat) :
    ∀ x ∈ (data.drop off).take k, x ∈ data := fun _ hx =>
  List.mem_of_mem_drop (List.mem_of_mem_take hx)

theorem dropWhile_head_false (p : Nat → Bool) :
    ∀ (l : List Nat) (x : Nat) (xs : List Nat),
    l.dropWhile p = x :: xs → p x = false := by
  intro l
  induction l with
  | nil => intro x xs h; cases h
  | cons a as ih =>
    intro x xs h
    rw [List.dropWhile_cons] at h
    by_cases hp : p a = true
    · rw [if_pos hp] at h
      exact ih x xs h
    · rw [if_neg hp] at h
      injection h with h1 _
      subst h1
      simpa using hp

theorem take8_eq_cof (t8 : List Nat) (hlen : t8.length = 8)
    (h7 : (t8.takeWhile (fun c => c ≠ 0)).length = 7) :
    t8 = t8.takeWhile (fun c => c ≠ 0) ++ [0] := by
  have happ := List.takeWhile_append_dropWhile
    (p := fun c : Nat => decide (c ≠ 0)) (l := t8)
  have hdlen : (t8.dropWhile (fun c => c ≠ 0)).length = 1 := by
    have hc := congrArg List.length happ
    rw [List.length_append] at hc
    rw [show (t8.takeWhile (fun c : Nat => decide (c ≠ 0))).length = 7 from h7,
      hlen] at hc
    omega
  cases hdw : t8.dropWhile (fun c => c ≠ 0) with
  | nil => rw [hdw] at hdlen; simp at hdlen
  | cons x xs =>
    have hxs : xs = [] := by
      rw [hdw] at hdlen
      simp only [List.length_cons] at hdlen
      exact List.length_eq_zero.mp (by omega)
    have hx : x = 0 := by
      have := dropWhile_head_false (fun c => decide (c ≠ 0)) t8 x xs hdw
      simpa using this
    conv_lhs => rw [← happ]
    rw [hdw, hxs, hx]

theorem bytes160_split (bs : List Nat) :
    bs = bs.take 8 ++
      ((bs.drop 8).take 4 ++ ((bs.drop 12).take 4 ++ bs.drop 16)) := by
  conv_lhs => rw [← List.take_append_drop 8 bs]
  congr 1
  conv_lhs => rw [← List.take_append_drop 4 (bs.drop 8)]
  congr 1
  rw [List.drop_drop]
  conv_lhs => rw [← List.take_append_drop 4 (bs.drop 12)]
  congr 1
  rw [List.drop_drop]

theorem mkRecord_ok_inv (cof : List Nat) (fpd speed : Nat)
    (T : List (Nat × Nat)) (r : Record)
    (h : mkRecord cof fpd speed T = Except.ok r) :
    cof.length = 7 ∧ (0 : Nat) ∉ cof ∧ fpd ≤ DWORD_MAX ∧ speed ≤ DWORD_MAX ∧
      ∃ t, ActionTriggers_init T = Except.ok t ∧
        r = Record.mk cof fpd speed t := by
  unfold mkRecord at h
  by_cases h1 : cof.length ≠ 7
  · rw [if_pos h1] at h; cases h
  · rw [if_neg h1] at h
    by_cases h2 : (0 : Nat) ∈ cof
    · rw [if_pos h2] at h; cases h
    · rw [if_neg h2] at h
      by_cases h3 : DWORD_MAX < fpd
      · rw [if_pos h3] at h; cases h
      · rw [if_neg h3] at h
        by_cases h4 : DWORD_MAX < speed
        · rw [if_pos h4] at h; cases h
        · rw [if_neg h4] at h
          cases hti : ActionTriggers_init T with
          | error e => rw [hti] at h; cases h
          | ok t =>
            rw [hti] at h
            injection h with h
            exact ⟨by omega, h2, by omega, by omega, t, rfl, h.symm⟩

theorem unpack_record_ok_inv (data : List Nat) (off : Nat) (r : Record)
    (sz : Nat) (hbytes : ∀ x ∈ data, x < 256)
    (h : unpack_record data off = Except.ok (r, sz)) :
    sz = 160 ∧ off + 160 ≤ data.length ∧ validRecord r ∧
      encRecord r = (data.drop off).take 160 := by
  unfold unpack_record at h
  cases hrb : readBytes data off 160 with
  | none => rw [hrb] at h; cases h
  | some bs =>
    rw [hrb] at h
    obtain ⟨hoff, hbs⟩ := readBytes_some_iff hrb
    have hbslen : bs.length = 160 := by
      rw [hbs, List.length_take, List.length_drop]; omega
    have hbsmem : ∀ x ∈ bs, x < 256 := by
      intro x hx
      rw [hbs] at hx
      exact hbytes x (take_drop_mem data off 160 x hx)
    cases hbr : build_record (bs.take 8) (le32 ((bs.drop 8).take 4))
        (le32 ((bs.drop 12).take 4)) (bs.drop 16) with
    | error e =>
      simp only [hbr] at h
      exact Except.noConfusion h
    | ok rec =>
      simp only [hbr] at h
      injection h with h
      injection h with hrec hsz
      subst hrec
      simp only [build_record] at hbr
      split at hbr
      case isFalse => cases hbr
      case isTrue hascii =>
        cases hfc : from_codes (bs.drop 16) with
        | error e => rw [hfc] at hbr; cases hbr
        | ok T =>
          rw [hfc] at hbr
          obtain ⟨h7, h0, hfpd, hspeed, t, hti, hrt⟩ :=
            mkRecord_ok_inv _ _ _ _ _ hbr
          have hfd144 : (bs.drop 16).length = FRAME_MAX := by
            rw [List.length_drop, hbslen]
            rfl
          obtain ⟨hTsp, hTcodes, hTvalid, _⟩ :=
            from_codes_ok_eq (bs.drop 16) T hfd144 hfc
          have htT : t = T := by
            rw [ActionTriggers_init_of_valid T hTvalid] at hti
            injection hti with hti
            exact hti.symm
          subst htT
          have hcofz : ∀ c ∈ (bs.take 8).takeWhile (fun c => c ≠ 0), c ≠ 0 := by
            intro c hc
            have := List.mem_takeWhile_imp hc
            simpa using this
          have hcof128 : ∀ c ∈ (bs.take 8).takeWhile (fun c => c ≠ 0),
              c < 128 := hascii
          have hvr : validRecord rec := by
            rw [hrt]
            exact ⟨h7, fun c hc => ⟨hcofz c hc, hcof128 c hc⟩, hfpd, hspeed,
              hTvalid⟩
          refine ⟨hsz.symm, hoff, hvr, ?_⟩
          have h8len : (bs.take 8).length = 8 := by
            rw [List.length_take, hbslen]; omega
          have h4a : ((bs.drop 8).take 4).length = 4 := by
            rw [List.length_take, List.length_drop, hbslen]; omega
          have h4b : ((bs.drop 12).take 4).length = 4 := by
            rw [List.length_take, List.length_drop, hbslen]; omega
          have hm4a : ∀ x ∈ (bs.drop 8).take 4, x < 256 := fun x hx =>
            hbsmem x (take_drop_mem bs 8 4 x hx)
          have hm4b : ∀ x ∈ (bs.drop 12).take 4, x < 256 := fun x hx =>
            hbsmem x (take_drop_mem bs 12 4 x hx)
          rw [hrt, ← hbs]
          show (((bs.take 8).takeWhile (fun c => c ≠ 0)) ++ [0]) ++
            (u32le (le32 ((bs.drop 8).take 4)) ++
              (u32le (le32 ((bs.drop 12).take 4)) ++ to_codes t)) = bs
          rw [u32le_le32_of _ h4a hm4a, u32le_le32_of _ h4b hm4b, hTcodes,
            ← take8_eq_cof (bs.take 8) h8len (by rw [h7])]
          exact (bytes160_split bs).symm

/-- Every record of bucket i (counted from b) hashes to b + i. -/
def allHash : Nat → List (List Record) → Prop
  | _, [] => True
  | b, bucket :: rest =>
    (∀ r ∈ bucket, hash_cof_name r.cof_name = b) ∧ allHash (b + 1) rest

theorem parseRecords_ok_inv (data : List Nat) (hbytes : ∀ x ∈ data, x < 256)
    (bi : Nat) :
    ∀ (n off : Nat) (recs : List Record) (off' : Nat),
    parseRecords data bi n off = Except.ok (recs, off') →
    recs.length = n ∧ off' = off + 160 * n ∧
      (off + 160 * n ≤ data.length ∨ n = 0) ∧
      (∀ r ∈ recs, validRecord r ∧ hash_cof_name r.cof_name = bi) ∧
      packRecords recs = Except.ok ((data.drop off).take (160 * n)) := by
  intro n
  induction n with
  | zero =>
    intro off recs off' h
    rw [parseRecords] at h
    injection h with h
    injection h with h1 h2
    subst h1
    refine ⟨rfl, by omega, Or.inr rfl, ?_, ?_⟩
    · intro r hr; cases hr
    · simp [packRecords]
  | succ n ih =>
    intro off recs off' h
    rw [parseRecords] at h
    cases hu : unpack_record data off with
    | error e =>
      simp only [hu] at h
      exact Except.noConfusion h
    | ok rsz =>
      obtain ⟨r, sz⟩ := rsz
      simp only [hu] at h
      by_cases hh : bi = hash_cof_name r.cof_name
      · rw [if_pos hh] at h
        cases hp : parseRecords data bi n (off + sz) with
        | error e =>
          simp only [hp] at h
          exact Except.noConfusion h
        | ok po =>
          obtain ⟨rs, off2⟩ := po
          simp only [hp] at h
          injection h with h
          injection h with h1 h2
          subst h1
          subst h2
          obtain ⟨hsz, hbound, hvr, henc⟩ :=
            unpack_record_ok_inv data off r sz hbytes hu
          subst hsz
          obtain ⟨hlen2, hoff2, _, hmem2, hpk2⟩ := ih (off + 160) rs off2 hp
          refine ⟨by simp [hlen2], by omega, Or.inl (by omega), ?_, ?_⟩
          · intro x hx
            rcases List.mem_cons.mp hx with rfl | hx'
            · exact ⟨hvr, hh.symm⟩
            · exact hmem2 x hx'
          · simp only [packRecords, pack_record_ok r hvr, hpk2, henc]
            congr 1
            rw [show 160 * (n + 1) = 160 + 160 * n from by omega,
              List.take_add]
            congr 1
            rw [List.drop_drop]
      · rw [if_neg hh] at h
        exact Except.noConfusion h

theorem parseBlocks_ok_inv (data : List Nat) (hbytes : ∀ x ∈ data, x < 256) :
    ∀ (k b off : Nat) (blocks : List (List Record)) (off' : Nat),
    parseBlocks data b k off = Except.ok (blocks, off') →
    blocks.length = k ∧ off ≤ off' ∧
      (off ≤ data.length → off' ≤ data.length) ∧
      allHash b blocks ∧
      (∀ bucket ∈ blocks, ∀ r ∈ bucket, validRecord r) ∧
      (∀ table : Nat → List Record,
        (∀ i, i < k → table (b + i) = blocks.getD i []) →
        dumpsAux table (List.range' b k) =
          Except.ok ((data.drop off).take (off' - off))) := by
  intro k
  induction k with
  | zero =>
    intro b off blocks off' h
    rw [parseBlocks] at h
    injection h with h
    injection h with h1 h2
    subst h1
    subst h2
    refine ⟨rfl, le_refl _, fun h => h, trivial, ?_, ?_⟩
    · intro bk hb; cases hb
    · intro table _
      simp [dumpsAux]
  | succ k ih =>
    intro b off blocks off' h
    rw [parseBlocks] at h
    cases hrb : readBytes data off 4 with
    | none =>
      simp only [hrb] at h
      exact Except.noConfusion h
    | some cb =>
      simp only [hrb] at h
      obtain ⟨hoff4, hcb⟩ := readBytes_some_iff hrb
      have hcblen : cb.length = 4 := by
        rw [hcb, List.length_take, List.length_drop]; omega
      have hcbmem : ∀ x ∈ cb, x < 256 := by
        intro x hx
        rw [hcb] at hx
        exact hbytes x (take_drop_mem data off 4 x hx)
      cases hpr : parseRecords data b (le32 cb) (off + 4) with
      | error e =>
        simp only [hpr] at h
        exact Except.noConfusion h
      | ok po =>
        obtain ⟨recs, off2⟩ := po
        simp only [hpr] at h
        cases hpb : parseBlocks data (b + 1) k off2 with
        | error e =>
          simp only [hpb] at h
          exact Except.noConfusion h
        | ok po2 =>
          obtain ⟨blocks2, off3⟩ := po2
          simp only [hpb] at h
          injection h with h
          injection h with h1 h2
          subst h1
          subst h2
          obtain ⟨hrlen, hoff2, hrbound, hrmem, hrpk⟩ :=
            parseRecords_ok_inv data hbytes b (le32 cb) (off + 4) recs off2 hpr
          obtain ⟨hblen, hmono2, hbound2, hhash2, hvalid2, hdump2⟩ :=
            ih (b + 1) off2 blocks2 off3 hpb
          have hoff2le : off2 ≤ data.length := by
            rcases hrbound with hb | hb
            · omega
            · omega
          refine ⟨by simp [hblen], by omega, fun _ => hbound2 hoff2le,
            ⟨fun r hr => (hrmem r hr).2, hhash2⟩, ?_, ?_⟩
          · intro bucket hb r hr
            rcases List.mem_cons.mp hb with rfl | hb'
            · exact (hrmem r hr).1
            · exact hvalid2 bucket hb' r hr
          · intro table htab
            rw [List.range'_succ, dumpsAux]
            have htab0 : table b = recs := by
              have := htab 0 (by omega)
              simpa using this
            have hpkblock : packBlock (table b) =
                Except.ok (cb ++ (data.drop (off + 4)).take (160 * le32 cb)) := by
              rw [htab0]
              simp only [packBlock, packU32, hrlen,
                if_pos (le32_le_DWORD_of cb hcblen hcbmem),
                u32le_le32_of cb hcblen hcbmem, hrpk]
            have hdump2' := hdump2 table (fun i hi => by
              have := htab (i + 1) (by omega)
              rw [show b + (i + 1) = b + 1 + i from by omega] at this
              simpa using this)
            simp only [hpkblock, hdump2']
            rw [List.append_assoc]
            congr 1
            rw [show off3 - off = 4 + (160 * le32 cb + (off3 - off2)) from by
              omega, List.take_add]
            congr 1
            rw [List.drop_drop, List.take_add]
            congr 1
            rw [List.drop_drop]
            congr 2

theorem allHash_flatten_mem :
    ∀ (blocks : List (List Record)) (b0 : Nat), allHash b0 blocks →
    ∀ r ∈ blocks.flatten, b0 ≤ hash_cof_name r.cof_name ∧
      hash_cof_name r.cof_name < b0 + blocks.length := by
  intro blocks
  induction blocks with
  | nil => intro b0 _ r hr; simp at hr
  | cons bucket rest ih =>
    intro b0 hall r hr
    rw [List.flatten_cons] at hr
    rcases List.mem_append.mp hr with hm | hm
    · have := hall.1 r hm
      simp only [List.length_cons]
      omega
    · have := ih (b0 + 1) hall.2 r hm
      simp only [List.length_cons]
      omega

theorem filter_flatten_out (blocks : List (List Record)) (b0 b : Nat)
    (hall : allHash b0 blocks) (hout : b < b0 ∨ b0 + blocks.length ≤ b) :
    blocks.flatten.filter (fun r => hash_cof_name r.cof_name = b) = [] := by
  apply List.filter_eq_nil_iff.mpr
  intro r hr
  have := allHash_flatten_mem blocks b0 hall r hr
  simp only [decide_eq_true_eq]
  omega

theorem filter_flatten_getD :
    ∀ (blocks : List (List Record)) (b0 b : Nat), allHash b0 blocks →
    b0 ≤ b → b < b0 + blocks.length →
    blocks.flatten.filter (fun r => hash_cof_name r.cof_name = b) =
      blocks.getD (b - b0) [] := by
  intro blocks
  induction blocks with
  | nil => intro b0 b _ h1 h2; simp
  | cons bucket rest ih =>
    intro b0 b hall hb1 hb2
    rw [List.flatten_cons, List.filter_append]
    by_cases heq : b = b0
    · subst heq
      rw [List.filter_eq_self.mpr (fun r hr => by
          simp only [decide_eq_true_eq]; exact hall.1 r hr),
        filter_flatten_out rest (b + 1) b hall.2 (Or.inl (by omega)),
        List.append_nil]
      simp
    · have hgt : b0 + 1 ≤ b := by omega
      rw [List.filter_eq_nil_iff.mpr (fun r hr => by
          simp only [decide_eq_true_eq]
          have := hall.1 r hr
          omega),
        List.nil_append,
        ih (b0 + 1) b hall.2 hgt
          (by simp only [List.length_cons] at hb2; omega)]
      rw [show b - b0 = (b - (b0 + 1)) + 1 from by omega]
      simp [List.getD_cons_succ]

theorem loads_ok_inv (data : List Nat) (records : List Record)
    (h : loads data = Except.ok records) :
    ∃ blocks, parseBlocks data 0 256 0 = Except.ok (blocks, data.length) ∧
      records = blocks.flatten := by
  rw [loads] at h
  cases hp : parseBlocks data 0 256 0 with
  | error e =>
    simp only [hp] at h
    exact Except.noConfusion h
  | ok po =>
    obtain ⟨blocks, off⟩ := po
    simp only [hp] at h
    by_cases hoff : off = data.length
    · subst hoff
      rw [if_pos rfl] at h
      injection h with h
      exact ⟨blocks, rfl, h.symm⟩
    · rw [if_neg hoff] at h
      exact Except.noConfusion h

theorem dumps_of_loads (data : List Nat) (records : List Record)
    (hbytes : ∀ x ∈ data, x < 256)
    (h : loads data = Except.ok records) :
    dumps records = Except.ok data := by
  obtain ⟨blocks, hp, hrec⟩ := loads_ok_inv data records h
  obtain ⟨hblen, _, _, hhash, _, hdump⟩ :=
    parseBlocks_ok_inv data hbytes 256 0 0 blocks data.length hp
  subst hrec
  rw [dumps, List.range_eq_range']
  rw [hdump (buildHashTable blocks.flatten) ?_]
  · rw [Nat.sub_zero, List.drop_zero, List.take_length]
  · intro i hi
    rw [Nat.zero_add, buildHashTable_eq_filter]
    rw [filter_flatten_getD blocks 0 i hhash (Nat.zero_le i) (by omega)]
    rw [Nat.sub_zero]

theorem allHash_getD (blocks : List (List Record)) :
    ∀ b0 i, allHash b0 blocks → i < blocks.length →
    ∀ r ∈ blocks.getD i [], hash_cof_name r.cof_name = b0 + i := by
  induction blocks with
  | nil => intro b0 i _ hi; simp at hi
  | cons bucket rest ih =>
    intro b0 i hall hi r hr
    cases i with
    | zero => simpa using hall.1 r (by simpa using hr)
    | succ i' =>
      have := ih (b0 + 1) i' hall.2
        (by simp only [List.length_cons] at hi; omega) r (by simpa using hr)
      omega

theorem parseRecords_hash_mismatch (data : List Nat) (bi n off : Nat)
    (r : Record) (sz : Nat)
    (hu : unpack_record data off = Except.ok (r, sz))
    (hh : bi ≠ hash_cof_name r.cof_name) :
    parseRecords data bi (n + 1) off =
      Except.error (AnimDataError.mk "Incorrect hash" (some off)) := by
  rw [parseRecords]
  simp only [hu]
  rw [if_neg hh]

theorem unpack_record_ok_len (data : List Nat) (off : Nat) (r : Record)
    (sz : Nat) (h : unpack_record data off = Except.ok (r, sz)) :
    sz = 160 ∧ off + 160 ≤ data.length := by
  rw [unpack_record] at h
  cases hrb : readBytes data off 160 with
  | none =>
    rw [hrb] at h
    exact Except.noConfusion h
  | some bs =>
    simp only [hrb] at h
    obtain ⟨hle, _⟩ := readBytes_some_iff hrb
    cases hbr : build_record (bs.take 8) (le32 ((bs.drop 8).take 4))
        (le32 ((bs.drop 12).take 4)) (bs.drop 16) with
    | error e =>
      simp only [hbr] at h
      exact Except.noConfusion h
    | ok rec =>
      simp only [hbr] at h
      injection h with h
      injection h with _ hsz
      exact ⟨hsz.symm, hle⟩

/-! Buffer-extension and truncation lemmas: a successful parse is stable when
bytes are appended, and becomes a format error when the buffer is cut short. -/

theorem readBytes_ext (data ext : List Nat) (off n : Nat) (bs : List Nat)
    (h : readBytes data off n = some bs) :
    readBytes (data ++ ext) off n = some bs := by
  obtain ⟨hle, hbs⟩ := readBytes_some_iff h
  unfold readBytes
  rw [if_pos (by rw [List.length_append]; omega)]
  rw [List.drop_append_of_le_length (by omega),
    List.take_append_of_le_length (by rw [List.length_drop]; omega), hbs]

theorem readBytes_front (L ext : List Nat) (off n : Nat)
    (h : off + n ≤ L.length) :
    readBytes (L ++ ext) off n = readBytes L off n := by
  unfold readBytes
  rw [if_pos h, if_pos (by rw [List.length_append]; omega)]
  rw [List.drop_append_of_le_length (by omega),
    List.take_append_of_le_length (by rw [List.length_drop]; omega)]

theorem unpack_record_ext (data ext : List Nat) (off : Nat)
    (res : Record × Nat) (h : unpack_record data off = Except.ok res) :
    unpack_record (data ++ ext) off = Except.ok res := by
  rw [unpack_record] at h ⊢
  cases hrb : readBytes data off 160 with
  | none =>
    rw [hrb] at h
    exact Except.noConfusion h
  | some bs =>
    rw [readBytes_ext data ext off 160 bs hrb]
    rw [hrb] at h
    exact h

theorem unpack_record_front (L ext : List Nat) (off : Nat)
    (h : off + 160 ≤ L.length) :
    unpack_record (L ++ ext) off = unpack_record L off := by
  rw [unpack_record, unpack_record, readBytes_front L ext off 160 h]

theorem parseRecords_ext (data ext : List Nat) (bi : Nat) :
    ∀ (n off : Nat) (res : List Record × Nat),
    parseRecords data bi n off = Except.ok res →
    parseRecords (data ++ ext) bi n off = Except.ok res := by
  intro n
  induction n with
  | zero => intro off res h; rw [parseRecords] at h ⊢; exact h
  | succ n ih =>
    intro off res h
    rw [parseRecords] at h ⊢
    cases hu : unpack_record data off with
    | error e =>
      simp only [hu] at h
      exact Except.noConfusion h
    | ok rsz =>
      obtain ⟨r, sz⟩ := rsz
      simp only [hu] at h
      simp only [unpack_record_ext data ext off (r, sz) hu]
      by_cases hh : bi = hash_cof_name r.cof_name
      · rw [if_pos hh] at h ⊢
        cases hp : parseRecords data bi n (off + sz) with
        | error e =>
          simp only [hp] at h
          exact Except.noConfusion h
        | ok po =>
          simp only [hp] at h
          simp only [ih (off + sz) po hp]
          exact h
      · rw [if_neg hh] at h
        exact Except.noConfusion h

theorem parseBlocks_ext (data ext : List Nat) :
    ∀ (k b off : Nat) (res : List (List Record) × Nat),
    parseBlocks data b k off = Except.ok res →
    parseBlocks (data ++ ext) b k off = Except.ok res := by
  intro k
  induction k with
  | zero => intro b off res h; rw [parseBlocks] at h ⊢; exact h
  | succ k ih =>
    intro b off res h
    rw [parseBlocks] at h ⊢
    cases hrb : readBytes data off 4 with
    | none =>
      simp only [hrb] at h
      exact Except.noConfusion h
    | some cb =>
      simp only [hrb] at h
      simp only [readBytes_ext data ext off 4 cb hrb]
      cases hpr : parseRecords data b (le32 cb) (off + 4) with
      | error e =>
        simp only [hpr] at h
        exact Except.noConfusion h
      | ok po =>
        obtain ⟨recs, off2⟩ := po
        simp only [hpr] at h
        simp only [parseRecords_ext data ext b (le32 cb) (off + 4)
          (recs, off2) hpr]
        cases hpb : parseBlocks data (b + 1) k off2 with
        | error e =>
          simp only [hpb] at h
          exact Except.noConfusion h
        | ok po2 =>
          simp only [hpb] at h
          simp only [ih (b + 1) off2 po2 hpb]
          exact h

theorem parseRecords_trunc (L ext : List Nat)
    (hbytes : ∀ x ∈ L ++ ext, x < 256) (bi : Nat) :
    ∀ (n off : Nat) (recs : List Record) (off' : Nat),
    parseRecords (L ++ ext) bi n off = Except.ok (recs, off') →
    off ≤ L.length →
    (off' ≤ L.length → parseRecords L bi n off = Except.ok (recs, off')) ∧
    (L.length < off' → ∃ o, parseRecords L bi n off =
      Except.error (AnimDataError.mk "Cannot unpack record" (some o))) := by
  intro n
  induction n with
  | zero =>
    intro off recs off' h hoffL
    rw [parseRecords] at h
    injection h with h
    injection h with h1 h2
    subst h1
    subst h2
    exact ⟨fun _ => by rw [parseRecords], fun hlt => absurd hoffL (by omega)⟩
  | succ n ih =>
    intro off recs off' h hoffL
    rw [parseRecords] at h
    cases hu : unpack_record (L ++ ext) off with
    | error e =>
      simp only [hu] at h
      exact Except.noConfusion h
    | ok rsz =>
      obtain ⟨r, sz⟩ := rsz
      simp only [hu] at h
      by_cases hh : bi = hash_cof_name r.cof_name
      · rw [if_pos hh] at h
        cases hp : parseRecords (L ++ ext) bi n (off + sz) with
        | error e =>
          simp only [hp] at h
          exact Except.noConfusion h
        | ok po =>
          obtain ⟨rs, off2⟩ := po
          simp only [hp] at h
          injection h with h
          injection h with h1 h2
          subst h1
          subst h2
          obtain ⟨hsz, hbound⟩ := unpack_record_ok_len (L ++ ext) off r sz hu
          subst hsz
          obtain ⟨_, hoff2eq, _, _, _⟩ :=
            parseRecords_ok_inv (L ++ ext) hbytes bi n (off + 160) rs off2 hp
          by_cases hrec : off + 160 ≤ L.length
          · have huL : unpack_record L off = Except.ok (r, 160) := by
              rw [← unpack_record_front L ext off hrec]
              exact hu
            have ihres := ih (off + 160) rs off2 hp hrec
            constructor
            · intro hle
              rw [parseRecords]
              simp only [huL]
              rw [if_pos hh]
              simp only [ihres.1 hle]
            · intro hlt
              obtain ⟨o, ho⟩ := ihres.2 hlt
              refine ⟨o, ?_⟩
              rw [parseRecords]
              simp only [huL]
              rw [if_pos hh]
              simp only [ho]
          · have huL : unpack_record L off =
                Except.error (AnimDataError.mk "Cannot unpack record"
                  (some off)) := by
              rw [unpack_record, show readBytes L off 160 = none from by
                unfold readBytes
                rw [if_neg (by omega)]]
            constructor
            · intro hle
              exact absurd hle (by omega)
            · intro _
              refine ⟨off, ?_⟩
              rw [parseRecords]
              simp only [huL]
      · rw [if_neg hh] at h
        exact Except.noConfusion h

theorem parseBlocks_trunc (L ext : List Nat)
    (hbytes : ∀ x ∈ L ++ ext, x < 256) :
    ∀ (k b off : Nat) (blocks : List (List Record)) (off' : Nat),
    parseBlocks (L ++ ext) b k off = Except.ok (blocks, off') →
    off ≤ L.length →
    (off' ≤ L.length → parseBlocks L b k off = Except.ok (blocks, off')) ∧
    (L.length < off' → ∃ e, parseBlocks L b k off = Except.error e ∧
      (e.message = "Cannot unpack record count" ∨
        e.message = "Cannot unpack record")) := by
  intro k
  induction k with
  | zero =>
    intro b off blocks off' h hoffL
    rw [parseBlocks] at h
    injection h with h
    injection h with h1 h2
    subst h1
    subst h2
    exact ⟨fun _ => by rw [parseBlocks], fun hlt => absurd hoffL (by omega)⟩
  | succ k ih =>
    intro b off blocks off' h hoffL
    rw [parseBlocks] at h
    cases hrb : readBytes (L ++ ext) off 4 with
    | none =>
      simp only [hrb] at h
      exact Except.noConfusion h
    | some cb =>
      simp only [hrb] at h
      cases hpr : parseRecords (L ++ ext) b (le32 cb) (off + 4) with
      | error e =>
        simp only [hpr] at h
        exact Except.noConfusion h
      | ok po =>
        obtain ⟨recs, off2⟩ := po
        simp only [hpr] at h
        cases hpb : parseBlocks (L ++ ext) (b + 1) k off2 with
        | error e =>
          simp only [hpb] at h
          exact Except.noConfusion h
        | ok po2 =>
          obtain ⟨blocks2, off3⟩ := po2
          simp only [hpb] at h
          injection h with h
          injection h with h1 h2
          subst h1
          subst h2
          obtain ⟨_, hoff2eq, _, _, _⟩ :=
            parseRecords_ok_inv (L ++ ext) hbytes b (le32 cb) (off + 4)
              recs off2 hpr
          obtain ⟨_, hmono3, _, _, _, _⟩ :=
            parseBlocks_ok_inv (L ++ ext) hbytes k (b + 1) off2 blocks2
              off3 hpb
          by_cases hcnt4 : off + 4 ≤ L.length
          · have hrbL : readBytes L off 4 = some cb := by
              rw [← readBytes_front L ext off 4 hcnt4]
              exact hrb
            have hprt := parseRecords_trunc L ext hbytes b (le32 cb) (off + 4)
              recs off2 hpr hcnt4
            by_cases hrecsL : off2 ≤ L.length
            · have hprL := hprt.1 hrecsL
              have ihres := ih (b + 1) off2 blocks2 off3 hpb hrecsL
              constructor
              · intro hle
                rw [parseBlocks]
                simp only [hrbL, hprL, ihres.1 hle]
              · intro hlt
                obtain ⟨e, he, hmsg⟩ := ihres.2 hlt
                refine ⟨e, ?_, hmsg⟩
                rw [parseBlocks]
                simp only [hrbL, hprL, he]
            · obtain ⟨o, ho⟩ := hprt.2 (by omega)
              constructor
              · intro hle
                exact absurd hle (by omega)
              · intro _
                refine ⟨AnimDataError.mk "Cannot unpack record" (some o),
                  ?_, Or.inr rfl⟩
                rw [parseBlocks]
                simp only [hrbL, ho]
          · have hrbLnone : readBytes L off 4 = none := by
              unfold readBytes
              rw [if_neg (by omega)]
            constructor
            · intro hle
              exact absurd hle (by omega)
            · intro _
              refine ⟨AnimDataError.mk "Cannot unpack record count" (some off),
                ?_, Or.inl rfl⟩
              rw [parseBlocks]
              simp only [hrbLnone]

theorem loads_append_err (data : List Nat) (records : List Record) (x : Nat)
    (h : loads data = Except.ok records) :
    loads (data ++ [x]) =
      Except.error (AnimDataError.mk "Data size mismatch"
        (some data.length)) := by
  obtain ⟨blocks, hp, _⟩ := loads_ok_inv data records h
  rw [loads]
  simp only [parseBlocks_ext data [x] 256 0 0 (blocks, data.length) hp]
  rw [if_neg (by simp)]

theorem loads_dropLast_err (data : List Nat) (records : List Record)
    (hbytes : ∀ x ∈ data, x < 256)
    (h : loads data = Except.ok records) :
    ∃ e, loads data.dropLast = Except.error e ∧
      (e.message = "Cannot unpack record count" ∨
        e.message = "Cannot unpack record") := by
  obtain ⟨blocks, hp, _⟩ := loads_ok_inv data records h
  have hne : data ≠ [] := by
    intro hnil
    rw [hnil, parseBlocks] at hp
    rw [show readBytes ([] : List Nat) 0 4 = none from rfl] at hp
    exact Except.noConfusion hp
  have hsplit : data.dropLast ++ [data.getLast hne] = data :=
    List.dropLast_append_getLast hne
  have hp' : parseBlocks (data.dropLast ++ [data.getLast hne]) 0 256 0 =
      Except.ok (blocks, data.length) := by
    rw [hsplit]
    exact hp
  have hbytes' : ∀ y ∈ data.dropLast ++ [data.getLast hne], y < 256 := by
    intro y hy
    rw [hsplit] at hy
    exact hbytes y hy
  have hdlen : 1 ≤ data.length := by
    cases data with
    | nil => exact absurd rfl hne
    | cons a l => simp
  have hLlen : data.dropLast.length = data.length - 1 := by
    rw [List.length_dropLast]
  have htr := parseBlocks_trunc data.dropLast [data.getLast hne] hbytes'
    256 0 0 blocks data.length hp' (by omega)
  obtain ⟨e, he, hmsg⟩ := htr.2 (by omega)
  refine ⟨e, ?_, hmsg⟩
  rw [loads]
  simp only [he]

theorem packBlock_err (bucket : List Record) (h : DWORD_MAX < bucket.length) :
    packBlock bucket = Except.error "argument out of range" := by
  rw [packBlock, packU32, if_neg (by omega)]

theorem dumpsAux_err (table : Nat → List Record) :
    ∀ (idxs : List Nat) (b : Nat), b ∈ idxs →
    (∀ bl, packBlock (table b) ≠ Except.ok bl) →
    ∃ e, dumpsAux table idxs = Except.error e := by
  intro idxs
  induction idxs with
  | nil => intro b hb; cases hb
  | cons a as ih =>
    intro b hb hne
    rw [dumpsAux]
    cases hpk : packBlock (table a) with
    | error e => exact ⟨e, rfl⟩
    | ok bl =>
      rcases List.mem_cons.mp hb with rfl | hb'
      · exact absurd hpk (hne bl)
      · obtain ⟨e, he⟩ := ih b hb' hne
        exact ⟨e, by simp only [he]⟩

theorem insertSorted_mem (d : List (Nat × Nat)) (f c : Nat) :
    ∀ p ∈ insertSorted d f c, p = (f, c) ∨ p ∈ d := by
  induction d with
  | nil =>
    intro p hp
    rw [insertSorted] at hp
    exact Or.inl (by simpa using hp)
  | cons q qs ih =>
    intro p hp
    by_cases h1 : f < q.1
    · rw [insertSorted, if_pos h1] at hp
      rcases List.mem_cons.mp hp with rfl | hp'
      · exact Or.inl rfl
      · exact Or.inr hp'
    · rw [insertSorted, if_neg h1] at hp
      by_cases h2 : f = q.1
      · rw [if_pos h2] at hp
        rcases List.mem_cons.mp hp with rfl | hp'
        · exact Or.inl rfl
        · exact Or.inr (List.mem_cons_of_mem q hp')
      · rw [if_neg h2] at hp
        rcases List.mem_cons.mp hp with heq | hp'
        · rw [heq]
          exact Or.inr (List.mem_cons_self q qs)
        · rcases ih p hp' with h | h
          · exact Or.inl h
          · exact Or.inr (List.mem_cons_of_mem q h)

theorem triggers_setitem_ok_inv (d : List (Nat × Nat)) (f c : Nat)
    (d' : List (Nat × Nat)) (h : triggers_setitem d f c = Except.ok d') :
    f < FRAME_MAX ∧ 1 ≤ c ∧ c ≤ 3 ∧ d' = insertSorted d f c := by
  unfold triggers_setitem at h
  by_cases h1 : FRAME_MAX ≤ f
  · rw [if_pos h1] at h
    exact Except.noConfusion h
  · rw [if_neg h1] at h
    by_cases h2 : 1 ≤ c ∧ c ≤ 3
    · rw [if_pos h2] at h
      injection h with h
      exact ⟨by omega, h2.1, h2.2, h.symm⟩
    · rw [if_neg h2] at h
      exact Except.noConfusion h

theorem ActionTriggers_init_go_mem :
    ∀ (pairs acc T : List (Nat × Nat)),
    ActionTriggers_init_go pairs acc = Except.ok T →
    (∀ p ∈ acc, p.1 < FRAME_MAX ∧ 1 ≤ p.2 ∧ p.2 ≤ 3) →
    ∀ p ∈ T, p.1 < FRAME_MAX ∧ 1 ≤ p.2 ∧ p.2 ≤ 3 := by
  intro pairs
  induction pairs with
  | nil =>
    intro acc T h hacc
    rw [ActionTriggers_init_go] at h
    injection h with h
    subst h
    exact hacc
  | cons q qs ih =>
    intro acc T h hacc
    rw [ActionTriggers_init_go] at h
    cases hs : triggers_setitem acc q.1 q.2 with
    | error e =>
      simp only [hs] at h
      exact Except.noConfusion h
    | ok acc' =>
      simp only [hs] at h
      obtain ⟨hf, hc1, hc3, hd'⟩ := triggers_setitem_ok_inv acc q.1 q.2 acc' hs
      refine ih acc' T h (fun p hp => ?_)
      rw [hd'] at hp
      rcases insertSorted_mem acc q.1 q.2 p hp with rfl | hp'
      · exact ⟨hf, hc1, hc3⟩
      · exact hacc p hp'

theorem unpack_record_ok_triggers (data : List Nat) (off : Nat) (r : Record)
    (sz : Nat) (h : unpack_record data off = Except.ok (r, sz)) :
    ∀ p ∈ r.triggers, p.1 < FRAME_MAX ∧ 1 ≤ p.2 ∧ p.2 ≤ 3 := by
  rw [unpack_record] at h
  cases hrb : readBytes data off 160 with
  | none =>
    rw [hrb] at h
    exact Except.noConfusion h
  | some bs =>
    simp only [hrb] at h
    cases hbr : build_record (bs.take 8) (le32 ((bs.drop 8).take 4))
        (le32 ((bs.drop 12).take 4)) (bs.drop 16) with
    | error e =>
      simp only [hbr] at h
      exact Except.noConfusion h
    | ok rec =>
      simp only [hbr] at h
      injection h with h
      injection h with hrec _
      subst hrec
      simp only [build_record] at hbr
      split at hbr
      case isFalse => exact Except.noConfusion hbr
      case isTrue =>
        cases hfc : from_codes (bs.drop 16) with
        | error e =>
          rw [hfc] at hbr
          exact Except.noConfusion hbr
        | ok T =>
          rw [hfc] at hbr
          obtain ⟨_, _, _, _, t, hti, hrt⟩ := mkRecord_ok_inv _ _ _ _ _ hbr
          intro p hp
          rw [hrt] at hp
          exact ActionTriggers_init_go_mem T [] t hti
            (by intro q hq; cases hq) p hp

theorem unpack_record_bad_code (data : List Nat) (offset : Nat)
    (bs : List Nat) (hread : readBytes data offset 160 = some bs)
    (hbad : ∃ c ∈ bs.drop 16, 4 ≤ c) :
    unpack_record data offset = Except.error
      (AnimDataError.mk "Invalid record field" (some offset)) := by
  obtain ⟨hle, hbs⟩ := readBytes_some_iff hread
  have hlen : (bs.drop 16).length = 144 := by
    rw [hbs, List.length_drop, List.length_take, List.length_drop]
    omega
  have hfc : from_codes (bs.drop 16) =
      Except.error "code must be between 1 and 3" :=
    from_codes_go_err (bs.drop 16) 0 [] (by rw [Nat.zero_add, hlen]; rfl) hbad
  rw [unpack_record]
  simp only [hread, build_record]
  by_cases hascii : ∀ c ∈ (bs.take 8).takeWhile (fun c => c ≠ 0), c < 128
  · rw [if_pos hascii]
    simp only [hfc]
  · rw [if_neg hascii]

/-! The claim theorems. -/

/-- A sample record, the spec's concrete scenario: identifier "AAAAAAA" (seven
code points 65, hash 199), frames_per_direction 20, speed 256, triggers with
code 1 at frame 5 and code 2 at frame 10. -/
def sampleRecord : Record :=
  Record.mk (List.replicate 7 65) 20 256 [(5, 1), (10, 2)]

/-- Claim C1 (counterexample): with 2^32 copies of a single valid record, all
in one hash bucket, the bucket's record count no longer fits the unsigned
32-bit count field, so dumps raises struct.error and loads(dumps(L)) does not
succeed; the unconditional round trip claimed for every record list fails. -/
theorem claim_C1_counterexample :
    ∃ e, dumps (List.replicate 4294967296 sampleRecord) = Except.error e := by
  unfold dumps
  apply dumpsAux_err (buildHashTable (List.replicate 4294967296 sampleRecord))
    (List.range 256) 199
  · exact List.mem_range.mpr (by norm_num)
  · intro bl hok
    rw [buildHashTable_eq_filter] at hok
    rw [List.filter_eq_self.mpr ?_] at hok
    · rw [packBlock_err _ ?_] at hok
      · exact Except.noConfusion hok
      · rw [List.length_replicate]
        norm_num [DWORD_MAX]
    · intro r hr
      rw [List.eq_of_mem_replicate hr]
      decide

/-- Claim C1 (amended): for every record list L whose members satisfy the
data-model invariants and whose hash buckets each receive at most 2^32 - 1
records (so every bucket count fits its unsigned 32-bit field),
loads(dumps(L)) succeeds and returns L's records regrouped by hash bucket
index 0..255, preserving relative input order inside each bucket, with every
field value bit-identical. -/
theorem claim_C1 (L : List Record) (hv : ∀ r ∈ L, validRecord r)
    (hcnt : ∀ b, (buildHashTable L b).length ≤ DWORD_MAX) :
    ∃ data, dumps L = Except.ok data ∧
      loads data = Except.ok
        (((List.range 256).map
          (fun b => L.filter
            (fun r => hash_cof_name r.cof_name = b))).flatten) := by
  obtain ⟨data, hd, hl⟩ := loads_dumps L hv hcnt
  rw [regroup] at hl
  exact ⟨data, hd, hl⟩

/-- Witness for claim C1 at the one-record list [sampleRecord]. -/
theorem claim_C1_witness :
    ∃ data, dumps [sampleRecord] = Except.ok data ∧
      loads data = Except.ok
        (((List.range 256).map
          (fun b => [sampleRecord].filter
            (fun r => hash_cof_name r.cof_name = b))).flatten) :=
  claim_C1 [sampleRecord] (by decide)
    (fun b => by
      rw [buildHashTable_eq_filter]
      exact le_trans (List.length_filter_le _ _) (by norm_num [DWORD_MAX]))

/-- Claim C2 (counterexample): in the dict-backed ActionTriggers of
d2animdata.py, constructing a trigger set from two pairs assigned to frame 10
succeeds and silently keeps only the later code, contradicting the claim that
such a construction always fails with a validation error. -/
theorem claim_C2_counterexample :
    ActionTriggers_init [(10, 1), (10, 2)] = Except.ok [(10, 2)] := rfl

/-- Claim C2 (amended): the tuple-backed Record.triggers setter of animdata.py
rejects two triggers on the same frame with a ValueError regardless of the
two codes, while the dict-backed ActionTriggers of d2animdata.py accepts the
pair and silently keeps only the last code assigned to the frame. -/
theorem claim_C2 (c1 c2 : Nat) (h1 : 1 ≤ c1) (h2 : c1 ≤ 3) (h3 : 1 ≤ c2)
    (h4 : c2 ≤ 3) :
    animdata_check_duplicate_frames [(10, c1), (10, c2)] [] =
      Except.error
        "Cannot assign another trigger to a frame already in use." ∧
    ActionTriggers_init [(10, c1), (10, c2)] = Except.ok [(10, c2)] := by
  constructor
  · rfl
  · have hs1 : triggers_setitem [] 10 c1 = Except.ok [(10, c1)] := by
      unfold triggers_setitem
      rw [if_neg (by decide), if_pos ⟨h1, h2⟩]
      rfl
    have hs2 : triggers_setitem [(10, c1)] 10 c2 = Except.ok [(10, c2)] := by
      unfold triggers_setitem
      rw [if_neg (by decide), if_pos ⟨h3, h4⟩]
      rfl
    rw [ActionTriggers_init, ActionTriggers_init_go]
    simp only [hs1]
    rw [ActionTriggers_init_go]
    simp only [hs2]
    rw [ActionTriggers_init_go]

/-- Witness for claim C2 at codes 1 and 2. -/
theorem claim_C2_witness :
    animdata_check_duplicate_frames [(10, 1), (10, 2)] [] =
      Except.error
        "Cannot assign another trigger to a frame already in use." ∧
    ActionTriggers_init [(10, 1), (10, 2)] = Except.ok [(10, 2)] :=
  claim_C2 1 2 (by decide) (by decide) (by decide) (by decide)

/-- Claim C3: after the 256 blocks are parsed, loads fails with the
offset-tagged "Data size mismatch" format error whenever the cursor differs
from the buffer length; a buffer loads accepts is consumed exactly; appending
a trailing byte to an accepted buffer makes loads fail with that format error
at the old length, and removing the trailing byte makes it fail with an
offset-tagged unpack format error. -/
theorem claim_C3 (data : List Nat) (hbytes : ∀ x ∈ data, x < 256) :
    (∀ blocks off, parseBlocks data 0 256 0 = Except.ok (blocks, off) →
      off ≠ data.length →
      loads data = Except.error
        (AnimDataError.mk "Data size mismatch" (some off))) ∧
    (∀ records, loads data = Except.ok records →
      ∃ blocks, parseBlocks data 0 256 0 =
        Except.ok (blocks, data.length)) ∧
    (∀ records x, loads data = Except.ok records →
      loads (data ++ [x]) = Except.error
        (AnimDataError.mk "Data size mismatch" (some data.length))) ∧
    (∀ records, loads data = Except.ok records →
      ∃ e, loads data.dropLast = Except.error e ∧
        (e.message = "Cannot unpack record count" ∨
          e.message = "Cannot unpack record")) := by
  refine ⟨?_, ?_, ?_, ?_⟩
  · intro blocks off hp hne
    rw [loads]
    simp only [hp]
    rw [if_neg hne]
  · intro records h
    obtain ⟨blocks, hp, _⟩ := loads_ok_inv data records h
    exact ⟨blocks, hp⟩
  · intro records x h
    exact loads_append_err data records x h
  · intro records h
    exact loads_dropLast_err data records hbytes h

set_option maxRecDepth 200000 in
/-- Witness for claim C3 at the all-zero 1024-byte table (256 empty
buckets). -/
theorem claim_C3_witness :
    loads (List.replicate 1024 0 ++ [0]) =
      Except.error (AnimDataError.mk "Data size mismatch" (some 1024)) ∧
    (∃ e, loads (List.replicate 1024 0).dropLast = Except.error e ∧
      (e.message = "Cannot unpack record count" ∨
        e.message = "Cannot unpack record")) := by
  have h := claim_C3 (List.replicate 1024 0)
    (fun x hx => by rw [List.eq_of_mem_replicate hx]; norm_num)
  have hok : loads (List.replicate 1024 0) = Except.ok [] := rfl
  refine ⟨?_, h.2.2.2 [] hok⟩
  have h3 := h.2.2.1 [] 0 hok
  rw [List.length_replicate] at h3
  exact h3

/-- Claim C4: a successful loads yields records organised in 256 blocks where
every record in block i hashes to i; during decoding, a record whose
recomputed hash differs from the current block index makes parsing fail with
the "Incorrect hash" data error carrying the record's byte offset. -/
theorem claim_C4 (data : List Nat) (hbytes : ∀ x ∈ data, x < 256) :
    (∀ records, loads data = Except.ok records →
      ∃ blocks : List (List Record), records = blocks.flatten ∧
        blocks.length = 256 ∧
        ∀ i, i < 256 → ∀ r ∈ blocks.getD i [],
          hash_cof_name r.cof_name = i) ∧
    (∀ bi n off r sz, unpack_record data off = Except.ok (r, sz) →
      bi ≠ hash_cof_name r.cof_name →
      parseRecords data bi (n + 1) off =
        Except.error (AnimDataError.mk "Incorrect hash" (some off))) ∧
    (∀ e, parseBlocks data 0 256 0 = Except.error e →
      loads data = Except.error e) := by
  refine ⟨?_, ?_, ?_⟩
  · intro records h
    obtain ⟨blocks, hp, hrec⟩ := loads_ok_inv data records h
    obtain ⟨hblen, _, _, hhash, _, _⟩ :=
      parseBlocks_ok_inv data hbytes 256 0 0 blocks data.length hp
    refine ⟨blocks, hrec, hblen, fun i hi r hr => ?_⟩
    have := allHash_getD blocks 0 i hhash (by omega) r hr
    omega
  · intro bi n off r sz hu hh
    exact parseRecords_hash_mismatch data bi n off r sz hu hh
  · intro e he
    rw [loads]
    simp only [he]

set_option maxRecDepth 100000 in
/-- Witness for claim C4: a bucket-0 record whose identifier hashes to 199 is
rejected with the offset-tagged "Incorrect hash" error. -/
theorem claim_C4_witness :
    parseRecords (encRecord sampleRecord) 0 1 0 =
      Except.error (AnimDataError.mk "Incorrect hash" (some 0)) := by
  have h := claim_C4 (encRecord sampleRecord) (by decide)
  exact h.2.1 0 0 0 sampleRecord 160 (by rfl) (by decide)

/-- Claim C5: hash_cof_name of an (ASCII) identifier equals the sum of the
uppercased code points modulo 256, and always lands in [0, 256); it is a pure
function of its argument, hence deterministic. -/
theorem claim_C5 (s : List Nat) (hascii : ∀ c ∈ s, c < 128) :
    hash_cof_name s = (s.map py_upper).sum % 256 ∧ hash_cof_name s < 256 :=
  ⟨rfl, hash_cof_name_lt s⟩

/-- Witness for claim C5 at the identifier "AAAAAAA". -/
theorem claim_C5_witness :
    (hash_cof_name (List.replicate 7 65) =
        ((List.replicate 7 65).map py_upper).sum % 256 ∧
      hash_cof_name (List.replicate 7 65) < 256) ∧
    hash_cof_name (List.replicate 7 65) = 199 :=
  ⟨claim_C5 (List.replicate 7 65) (by decide), by decide⟩

/-- Claim C6: for a valid trigger set T (at most one trigger per frame, frames
below 144, codes in [1,3]), decoding the 144-entry dense code array produced
by encoding T returns exactly T; entry f of the dense array is the code of
the trigger at frame f, or 0 when no trigger occupies the frame. -/
theorem claim_C6 (T : List (Nat × Nat)) (h : validTriggers T) :
    from_codes (to_codes T) = Except.ok T ∧
    (to_codes T).length = FRAME_MAX ∧
    ∀ f, f < FRAME_MAX → (to_codes T).getD f 0 = triggers_get T f := by
  refine ⟨from_codes_of_to_codes T h, to_codes_length T, fun f hf => ?_⟩
  rw [to_codes, List.getD_eq_getElem _ _ (by simpa using hf),
    List.getElem_map, List.getElem_range]

/-- Witness for claim C6 at the trigger set of sampleRecord. -/
theorem claim_C6_witness :
    from_codes (to_codes [(5, 1), (10, 2)]) = Except.ok [(5, 1), (10, 2)] ∧
    (to_codes [(5, 1), (10, 2)]).length = FRAME_MAX ∧
    ∀ f, f < FRAME_MAX →
      (to_codes [(5, 1), (10, 2)]).getD f 0 =
        triggers_get [(5, 1), (10, 2)] f :=
  claim_C6 [(5, 1), (10, 2)] (by decide)

/-- Claim C7: a record region whose 144-byte frame-code array contains a
non-zero byte outside [1,3] fails to decode, with the offset-tagged
"Invalid record field" data error, and can never decode successfully; more
generally a successfully decoded record never carries a trigger code outside
[1,3]. -/
theorem claim_C7 (data : List Nat) (offset : Nat) (bs : List Nat)
    (hread : readBytes data offset 160 = some bs)
    (hbad : ∃ c ∈ bs.drop 16, 4 ≤ c) :
    unpack_record data offset = Except.error
      (AnimDataError.mk "Invalid record field" (some offset)) ∧
    (∀ r sz, ¬ (unpack_record data offset = Except.ok (r, sz))) ∧
    (∀ (data2 : List Nat) (off2 : Nat) (r : Record) (sz : Nat),
      unpack_record data2 off2 = Except.ok (r, sz) →
      ∀ p ∈ r.triggers, 1 ≤ p.2 ∧ p.2 ≤ 3) := by
  have herr := unpack_record_bad_code data offset bs hread hbad
  refine ⟨herr, ?_, ?_⟩
  · intro r sz hok
    rw [herr] at hok
    exact Except.noConfusion hok
  · intro data2 off2 r sz hok p hp
    have h := unpack_record_ok_triggers data2 off2 r sz hok p hp
    exact ⟨h.2.1, h.2.2⟩

set_option maxRecDepth 100000 in
/-- Witness for claim C7: a record region with frame code 4 at frame 0 is
rejected with the offset-tagged "Invalid record field" error. -/
theorem claim_C7_witness :
    unpack_record
      (List.replicate 7 65 ++ [0] ++ u32le 20 ++ u32le 256 ++
        (4 :: List.replicate 143 0)) 0 =
      Except.error (AnimDataError.mk "Invalid record field" (some 0)) := by
  have h := claim_C7
    (List.replicate 7 65 ++ [0] ++ u32le 20 ++ u32le 256 ++
      (4 :: List.replicate 143 0)) 0
    (List.replicate 7 65 ++ [0] ++ u32le 20 ++ u32le 256 ++
      (4 :: List.replicate 143 0)) (by rfl) (by decide)
  exact h.1

/-- Claim C8: a record whose triggers include a frame at or beyond
frames_per_direction is constructed successfully and decodes successfully
(the condition is not an error); check_out_of_bounds_triggers is a separate
pure diagnostic that flags exactly the trigger frames that are at least
frames_per_direction, and it only reads the record. -/
theorem claim_C8 (cof : List Nat) (fpd speed : Nat)
    (pairs : List (Nat × Nat)) (hlen : cof.length = 7)
    (hz : ∀ c ∈ cof, c ≠ 0 ∧ c < 128) (hfpd : fpd ≤ DWORD_MAX)
    (hspeed : speed ≤ DWORD_MAX) (hT : validTriggers pairs)
    (hoob : ∃ p ∈ pairs, fpd ≤ p.1) :
    mkRecord cof fpd speed pairs =
      Except.ok (Record.mk cof fpd speed pairs) ∧
    unpack_record (encRecord (Record.mk cof fpd speed pairs)) 0 =
      Except.ok (Record.mk cof fpd speed pairs, 160) ∧
    (∀ r : Record, ∀ f,
      f ∈ check_out_of_bounds_triggers r ↔
        (f ∈ r.triggers.map Prod.fst ∧ r.frames_per_direction ≤ f)) := by
  have hvr : validRecord (Record.mk cof fpd speed pairs) :=
    ⟨hlen, hz, hfpd, hspeed, hT⟩
  refine ⟨mkRecord_ok cof fpd speed pairs hlen (fun c hc => (hz c hc).1)
    hfpd hspeed hT, ?_, ?_⟩
  · have h := unpack_record_encRecord [] [] (Record.mk cof fpd speed pairs) hvr
    rw [List.append_nil] at h
    exact h
  · intro r f
    rw [check_out_of_bounds_triggers]
    constructor
    · intro hf
      have h := List.mem_filter.mp hf
      exact ⟨h.1, by simpa using h.2⟩
    · intro hf
      exact List.mem_filter.mpr ⟨hf.1, by simpa using hf.2⟩

/-- Witness for claim C8: a record with frames_per_direction 3 and a trigger
on frame 5 is constructed and decoded successfully. -/
theorem claim_C8_witness :
    mkRecord (List.replicate 7 65) 3 0 [(5, 1)] =
      Except.ok (Record.mk (List.replicate 7 65) 3 0 [(5, 1)]) ∧
    unpack_record
      (encRecord (Record.mk (List.replicate 7 65) 3 0 [(5, 1)])) 0 =
      Except.ok (Record.mk (List.replicate 7 65) 3 0 [(5, 1)], 160) ∧
    (∀ r : Record, ∀ f,
      f ∈ check_out_of_bounds_triggers r ↔
        (f ∈ r.triggers.map Prod.fst ∧ r.frames_per_direction ≤ f)) :=
  claim_C8 (List.replicate 7 65) 3 0 [(5, 1)] (by decide) (by decide)
    (by decide) (by decide) (by decide) ⟨(5, 1), by decide, by decide⟩

/-- Claim C9: encoding a record whose identifier is not exactly 7 characters
fails with the length validation error; a 7-character identifier containing a
null byte fails with the null validation error; and for a valid record
pack_record writes the 7 identifier bytes left-justified followed by exactly
one null padding byte, with no truncation or extra padding. -/
theorem claim_C9 :
    (∀ (cof : List Nat) (fpd speed : Nat) (pairs : List (Nat × Nat)),
      cof.length ≠ 7 →
      mkRecord cof fpd speed pairs =
        Except.error "COF name must have exactly 7 characters.") ∧
    (∀ (cof : List Nat) (fpd speed : Nat) (pairs : List (Nat × Nat)),
      cof.length = 7 → (0 : Nat) ∈ cof →
      mkRecord cof fpd speed pairs =
        Except.error "COF name must not contain a null character.") ∧
    (∀ r : Record, validRecord r →
      pack_record r = Except.ok ((r.cof_name ++ [0]) ++
        (u32le r.frames_per_direction ++
          (u32le r.animation_speed ++ to_codes r.triggers)))) := by
  refine ⟨?_, ?_, ?_⟩
  · intro cof fpd speed pairs h
    rw [mkRecord, if_pos h]
  · intro cof fpd speed pairs h7 h0
    rw [mkRecord, if_neg (by omega), if_pos h0]
  · intro r hvr
    have h := pack_record_ok r hvr
    rw [encRecord] at h
    exact h

/-- Witness for claim C9: an 8-character identifier, a null-containing
identifier, and the packing of sampleRecord. -/
theorem claim_C9_witness :
    mkRecord (List.replicate 8 65) 0 0 [] =
      Except.error "COF name must have exactly 7 characters." ∧
    mkRecord (65 :: 0 :: List.replicate 5 65) 0 0 [] =
      Except.error "COF name must not contain a null character." ∧
    pack_record sampleRecord = Except.ok ((sampleRecord.cof_name ++ [0]) ++
      (u32le sampleRecord.frames_per_direction ++
        (u32le sampleRecord.animation_speed ++
          to_codes sampleRecord.triggers))) := by
  have h := claim_C9
  exact ⟨h.1 (List.replicate 8 65) 0 0 [] (by decide),
    h.2.1 (65 :: 0 :: List.replicate 5 65) 0 0 [] (by decide) (by decide),
    h.2.2 sampleRecord (by decide)⟩

/-- Claim C10: every byte buffer loads accepts is already canonical:
re-encoding the decoded record list with dumps reproduces the buffer byte for
byte. -/
theorem claim_C10 (data : List Nat) (records : List Record)
    (hbytes : ∀ x ∈ data, x < 256)
    (h : loads data = Except.ok records) :
    dumps records = Except.ok data :=
  dumps_of_loads data records hbytes h

set_option maxRecDepth 200000 in
/-- Witness for claim C10 at the all-zero 1024-byte table. -/
theorem claim_C10_witness :
    dumps [] = Except.ok (List.replicate 1024 0) :=
  claim_C10 (List.replicate 1024 0) []
    (fun x hx => by rw [List.eq_of_mem_replicate hx]; norm_num) rfl
